import Mathlib

/-!
The nibble delta codec of `src/dcode4.c`.

Shallow embedding of `encode4` / `decode4` and of the two nibble accessors
`hex_out` / `hex_in`, followed by the properties proved about them.

Modelling conventions.

* A C buffer (`byte*`) is a total map from byte index to the stored value
  (`Buf`).  A write outside the region the caller reserved therefore shows up
  as a changed cell, never as a silently dropped store.
* The input of `encode4` (`data`, `bytes`) is the list of its `bytes` samples.
* C `int` values that can be negative (`delta`, `last`, the value returned by
  `encode4`, the `bytes` argument of `decode4`, which callers feed with that
  returned value) are `Int`.  The nibble cursor `hexpos` and the sample index
  `i` start at 0 and are only incremented, and the capacity / sample count
  `count` is a number of bytes or samples: these are `Nat`.
* `encLoop` / `encode4` compute with unbounded integers; they describe the runs
  in which `count * 2` and `hexpos + bits / 4` fit in a C `int`.  `encLoopI32`
  / `encode4I32` are the same loop with the capacity test of line 89 evaluated
  in 32-bit two's complement; the two agree for every capacity up to
  `2^30 - 2` (`encode4I32_eq_encode4`), and from `2^30` on the 32-bit test
  refuses every non-empty input (`encode4I32_large`).  The decoder is computed
  with unbounded integers (`bytes * 2` fits in a C `int`).
* Conversions to `byte` / `uint16_t` are the explicit `% 256` / `% 65536`.
* `assert` is modelled by the outcome `Run.abort`.
-/

namespace DCode4

/-! ## Definitions -/

/-- Byte buffer: index of a byte to the value stored there. -/
abbrev Buf := Nat → Nat

/-- The assignment `b[idx] = v`. -/
def store (b : Buf) (idx v : Nat) : Buf := fun j => if j = idx then v else b j

/-- Outcome of running a function of the program. -/
inductive Run (α : Type) where
  /-- the function returned -/
  | ret : α → Run α
  /-- an `assert` failed -/
  | abort : Run α
  /-- the iteration budget of the model was used up (see `decLoop`) -/
  | stuck : Run α

/-- The all-zero buffer (`byte coded[...] = {}`). -/
def zeroBuf : Buf := fun _ => 0

/-- Macro `hex_out(output, hexpos, hex)`, lines 59-65, without the trailing
`hexpos++` (the callers pass the successive positions). -/
def hex_out (output : Buf) (hexpos hex : Nat) : Buf :=
  if hexpos % 2 = 0 then
    store output (hexpos / 2) ((hex &&& 0xF) % 256)
  else
    store output (hexpos / 2) ((output (hexpos / 2) ||| (((hex &&& 0xF) <<< 4) % 256)) % 256)

/-- Lines 75-88 of `encode4`: the 16-bit word `out` and its width `bits` for
one delta, or `abort` when one of the assertions of lines 75, 79, 82 fails. -/
def encWord (delta : Int) : Run (Nat × Nat) :=
  if ¬ (-255 ≤ delta ∧ delta ≤ 255) then Run.abort
  else if -6 ≤ delta ∧ delta ≤ 6 then
    let out : Nat := ((delta + 6) % 65536).toNat
    if 0 ≤ out ∧ out ≤ 0xC then Run.ret (out, 4) else Run.abort
  else if -19 ≤ delta ∧ delta ≤ 19 then
    let a : Nat := ((((delta.natAbs : Nat) : Int) - 6) % 256).toNat
    if 0 ≤ a ∧ a ≤ 0xD then
      Run.ret (((if delta < 0 then 0xD else 0xE) ||| (a <<< 4)) % 65536, 8)
    else Run.abort
  else
    Run.ret ((0xF ||| ((if delta < 0 then 0xD else 0xE) <<< 4) ||| (delta.natAbs <<< 8)) % 65536, 16)

/-- The `for` loop of `encode4` (lines 70-104) from the state
`(last, hexpos, output)` over the samples still to be read.  The result is the
returned `int` together with the final content of `output`.  The capacity test
of line 89 is computed with unbounded integers here, and in 32-bit `int` in
`encLoopI32`. -/
def encLoop (count : Nat) : List Nat → Int → Nat → Buf → Run (Int × Buf)
  | [], _, hexpos, output => Run.ret ((((hexpos + 1) / 2 : Nat) : Int), output)
  | x :: rest, last, hexpos, output =>
    match encWord (last - (x : Int)) with
    | Run.abort => Run.abort
    | Run.stuck => Run.stuck
    | Run.ret (out, bits) =>
      if hexpos + bits / 4 ≥ count * 2 then Run.ret (-1, output)
      else if bits = 4 then
        encLoop count rest (x : Int) (hexpos + 1) (hex_out output hexpos out)
      else if bits = 8 then
        encLoop count rest (x : Int) (hexpos + 2)
          (hex_out (hex_out output hexpos (out >>> 0)) (hexpos + 1) (out >>> 4))
      else if bits = 16 then
        encLoop count rest (x : Int) (hexpos + 4)
          (hex_out (hex_out (hex_out (hex_out output hexpos (out >>> 0))
            (hexpos + 1) (out >>> 4)) (hexpos + 2) (out >>> 8)) (hexpos + 3) (out >>> 12))
      else Run.abort

/-- Function `encode4(data, bytes, output, count)`, lines 67-105, with
`data[0..bytes)` given as the list `data`. -/
def encode4 (data : List Nat) (output : Buf) (count : Nat) : Run (Int × Buf) :=
  encLoop count data 0 0 output

/-- The value of a C `int` expression whose mathematical value is `n`, in
32-bit two's complement. -/
def toInt32 (n : Int) : Int := (n + 2147483648) % 4294967296 - 2147483648

/-- The `for` loop of `encode4` (lines 70-104) with the capacity test of
line 89, `hexpos + bits / 4 >= count * 2`, evaluated in 32-bit `int`; the rest
is `encLoop`. -/
def encLoopI32 (count : Nat) : List Nat → Int → Nat → Buf → Run (Int × Buf)
  | [], _, hexpos, output => Run.ret ((((hexpos + 1) / 2 : Nat) : Int), output)
  | x :: rest, last, hexpos, output =>
    match encWord (last - (x : Int)) with
    | Run.abort => Run.abort
    | Run.stuck => Run.stuck
    | Run.ret (out, bits) =>
      if toInt32 ((hexpos : Int) + ((bits / 4 : Nat) : Int)) ≥ toInt32 ((count : Int) * 2) then
        Run.ret (-1, output)
      else if bits = 4 then
        encLoopI32 count rest (x : Int) (hexpos + 1) (hex_out output hexpos out)
      else if bits = 8 then
        encLoopI32 count rest (x : Int) (hexpos + 2)
          (hex_out (hex_out output hexpos (out >>> 0)) (hexpos + 1) (out >>> 4))
      else if bits = 16 then
        encLoopI32 count rest (x : Int) (hexpos + 4)
          (hex_out (hex_out (hex_out (hex_out output hexpos (out >>> 0))
            (hexpos + 1) (out >>> 4)) (hexpos + 2) (out >>> 8)) (hexpos + 3) (out >>> 12))
      else Run.abort

/-- Function `encode4(data, bytes, output, count)`, lines 67-105, with the
capacity test of line 89 evaluated in 32-bit `int`. -/
def encode4I32 (data : List Nat) (output : Buf) (count : Nat) : Run (Int × Buf) :=
  encLoopI32 count data 0 0 output

/-- Macro `hex_in(hex, data, hexpos)`, lines 107-108: the value bound to `hex`
(the callers pass the successive positions). -/
def hex_in (data : Buf) (hexpos : Nat) : Nat :=
  ((data (hexpos / 2) >>> ((hexpos % 2) * 4)) &&& 0xF) % 256

/-- Lines 115-136 of `decode4`: read one code word at `hexpos`; the result is
`(delta, hexpos)` after the reads, or `abort` when an assertion fails. -/
def decDelta (data : Buf) (bytes : Int) (hexpos : Nat) : Run (Int × Nat) :=
  let hex0 := hex_in data hexpos
  if hex0 ≤ 0xC then
    let delta : Int := (hex0 : Int) - 6
    if -6 ≤ delta ∧ delta ≤ 6 then Run.ret (delta, hexpos + 1) else Run.abort
  else if ¬ (((hexpos + 1 : Nat) : Int) < bytes * 2) then Run.abort
  else
    let hex1 := hex_in data (hexpos + 1)
    if hex0 = 0xD ∨ hex0 = 0xE then
      let v : Int := (hex1 : Int) + 6
      let delta : Int := if hex0 = 0xD then -v else v
      if -19 ≤ delta ∧ delta ≤ 19 then Run.ret (delta, hexpos + 2) else Run.abort
    else if ¬ (hex0 = 0xF) then Run.abort
    else if ¬ (hex1 = 0xD ∨ hex1 = 0xE) then Run.abort
    else if ¬ (((hexpos + 2 : Nat) : Int) < bytes * 2 - 1) then Run.abort
    else
      let hex2 := hex_in data (hexpos + 2)
      let hex3 := hex_in data (hexpos + 3)
      let v : Int := ((hex2 ||| (hex3 <<< 4) : Nat) : Int)
      let delta : Int := if hex1 = 0xD then -v else v
      Run.ret (delta, hexpos + 4)

/-- One iteration of the `while` loop of `decode4` (lines 115-141) from the
state `(i, last, hexpos, output)`. -/
def decBody (data : Buf) (bytes : Int) (i : Nat) (last : Int) (hexpos : Nat) (output : Buf) :
    Run (Nat × Int × Nat × Buf) :=
  match decDelta data bytes hexpos with
  | Run.abort => Run.abort
  | Run.stuck => Run.stuck
  | Run.ret (delta, hexpos) =>
    let value : Int := last - delta
    if 0 ≤ value ∧ value ≤ 0xFF then
      Run.ret (i + 1, value, hexpos, store output i (value % 256).toNat)
    else Run.abort

/-- The `while` loop of `decode4` (line 114) run for at most `fuel`
iterations; the result is the final `(i, hexpos, output)`.  `stuck` is
returned only when the budget ends while the loop condition still holds. -/
def decLoop (data : Buf) (bytes : Int) (count : Nat) :
    Nat → Nat → Int → Nat → Buf → Run (Nat × Nat × Buf)
  | 0, i, _, hexpos, output =>
    if (hexpos : Int) < bytes * 2 ∧ i < count then Run.stuck else Run.ret (i, hexpos, output)
  | fuel + 1, i, last, hexpos, output =>
    if (hexpos : Int) < bytes * 2 ∧ i < count then
      match decBody data bytes i last hexpos output with
      | Run.abort => Run.abort
      | Run.stuck => Run.stuck
      | Run.ret (i, last, hexpos, output) => decLoop data bytes count fuel i last hexpos output
    else Run.ret (i, hexpos, output)

/-- Function `decode4(data, bytes, output, count)`, lines 110-144: the
returned `i` and the final content of `output`.  Every iteration increments
`i` and the loop stops at `i = count`, so `count` iterations are enough. -/
def decode4 (data : Buf) (bytes : Int) (output : Buf) (count : Nat) : Run (Nat × Buf) :=
  match decLoop data bytes count count 0 0 0 output with
  | Run.ret (i, _, output) => Run.ret (i, output)
  | Run.abort => Run.abort
  | Run.stuck => Run.stuck

/-! ### Reference notions used to state the properties -/

/-- Every element is a byte value. -/
def IsBytes (S : List Nat) : Prop := ∀ x ∈ S, x < 256

instance (S : List Nat) : Decidable (IsBytes S) :=
  inferInstanceAs (Decidable (∀ x ∈ S, x < 256))

/-- The first `n` cells of a buffer, as a list. -/
def readBytes (b : Buf) (n : Nat) : List Nat := (List.range n).map b

/-- Nibble `j` of a packed buffer: the low 4 bits of byte `j / 2` when `j` is
even, the high 4 bits when `j` is odd. -/
def nibbleAt (b : Buf) (j : Nat) : Nat :=
  if j % 2 = 0 then b (j / 2) % 16 else b (j / 2) / 16 % 16

/-- The first `n` nibbles of a packed buffer. -/
def readNibbles (b : Buf) (n : Nat) : List Nat := (List.range n).map (nibbleAt b)

/-- The code word of a delta, as the delta classification table gives it. -/
def codeWord (d : Int) : List Nat :=
  if -6 ≤ d ∧ d ≤ 6 then [(d + 6).toNat]
  else if 7 ≤ d.natAbs ∧ d.natAbs ≤ 19 then [if d < 0 then 0xD else 0xE, d.natAbs - 6]
  else [0xF, if d < 0 then 0xD else 0xE, d.natAbs % 16, d.natAbs / 16]

/-- The reference nibble stream of a sample sequence: the code words of the
deltas `previous - sample`, in input order. -/
def refStream : Int → List Nat → List Nat
  | _, [] => []
  | prev, s :: rest => codeWord (prev - (s : Int)) ++ refStream (s : Int) rest

/-- Sum over the samples of the nibble count of each sample's code word. -/
def totalNibbles : Int → List Nat → Nat
  | _, [] => 0
  | prev, s :: rest => (codeWord (prev - (s : Int))).length + totalNibbles (s : Int) rest

/-- Sequential `hex_out` of a list of nibbles starting at `hexpos`. -/
def writeNibbles : Buf → Nat → List Nat → Buf
  | output, _, [] => output
  | output, hexpos, h :: t => writeNibbles (hex_out output hexpos h) (hexpos + 1) t

/-- Sequential `output[i] = s` of a list of samples starting at index `i`. -/
def writeBytes : Buf → Nat → List Nat → Buf
  | output, _, [] => output
  | output, i, s :: t => writeBytes (store output i s) (i + 1) t

/-- The nibbles of a buffer from position `p` on are the given list. -/
def NibblesAt (data : Buf) : Nat → List Nat → Prop
  | _, [] => True
  | p, h :: t => hex_in data p = h ∧ NibblesAt data (p + 1) t

/-- States of the `while` loop of `decode4` that a run started on `out0`
passes through at the top of the loop: the initial state, and each state an
iteration of the loop produces. -/
inductive Reach (data : Buf) (bytes : Int) (count : Nat) (out0 : Buf) :
    Nat → Int → Nat → Buf → Prop where
  | start : Reach data bytes count out0 0 0 0 out0
  | step {i : Nat} {last : Int} {p : Nat} {o : Buf} {i2 : Nat} {last2 : Int} {p2 : Nat} {o2 : Buf} :
      Reach data bytes count out0 i last p o →
      ((p : Int) < bytes * 2 ∧ i < count) →
      decBody data bytes i last p o = Run.ret (i2, last2, p2, o2) →
      Reach data bytes count out0 i2 last2 p2 o2

/-- The code word starting at nibble `p` is malformed for a decoder whose
previous sample is `last`: (a) an escape nibble `0xF` followed by a nibble
other than `0xD` / `0xE`, or (b) the nibble stream of `bytes` bytes ends inside
a 2-nibble or 4-nibble code word, or (c) the reconstructed value
`last - delta` is outside `[0, 255]`. -/
def Malformed (data : Buf) (bytes : Int) (last : Int) (p : Nat) : Prop :=
  (nibbleAt data p = 0xF ∧ nibbleAt data (p + 1) ≠ 0xD ∧ nibbleAt data (p + 1) ≠ 0xE) ∨
  ((nibbleAt data p = 0xD ∨ nibbleAt data p = 0xE) ∧ bytes * 2 < ((p + 2 : Nat) : Int)) ∨
  (nibbleAt data p = 0xF ∧ bytes * 2 < ((p + 4 : Nat) : Int)) ∨
  (∃ delta p2, decDelta data bytes p = Run.ret (delta, p2) ∧
    (last - delta < 0 ∨ 255 < last - delta))

/-- The state variable `last` after the loop has handled the samples `S`
starting from `prev`: the last sample, or `prev` when `S` is empty. -/
def lastAfter : Int → List Nat → Int
  | prev, [] => prev
  | _, s :: rest => lastAfter (s : Int) rest

/-- The byte `b` with its high 4 bits replaced by the nibble `v`. -/
def setHighNibble (b v : Nat) : Nat := b % 16 + 16 * v

/-! ## Evaluation on the sample data of `main` -/

example : ∃ b, encode4 [100] zeroBuf 2 = Run.ret (-1, b) := ⟨_, rfl⟩
example : ∃ b, encode4 [0, 1, 2, 4, 8, 16, 32, 64, 128, 255] zeroBuf 20 = Run.ret (11, b) :=
  ⟨_, rfl⟩
example : ∃ b, decode4 zeroBuf (-1) zeroBuf 1 = Run.ret (0, b) := ⟨_, rfl⟩

/-! ## Bit-level facts -/

theorem and_fifteen (x : Nat) : x &&& 0xF = x % 16 :=
  Nat.and_pow_two_sub_one_eq_mod x 4

theorem shiftRight_four (x : Nat) : x >>> 4 = x / 16 :=
  Nat.shiftRight_eq_div_pow x 4

theorem shiftRight_eight (x : Nat) : x >>> 8 = x / 256 :=
  Nat.shiftRight_eq_div_pow x 8

theorem shiftRight_twelve (x : Nat) : x >>> 12 = x / 4096 :=
  Nat.shiftRight_eq_div_pow x 12

theorem or_mod_two_pow (a b n : Nat) : (a ||| b) % 2 ^ n = a % 2 ^ n ||| b % 2 ^ n := by
  apply Nat.eq_of_testBit_eq
  intro i
  simp only [Nat.testBit_mod_two_pow, Nat.testBit_or]
  cases decide (i < n) <;> simp

set_option maxRecDepth 100000 in
theorem or_high_nibble_fin : ∀ o < 256, ∀ t < 16,
    (o ||| ((t <<< 4) % 256)) % 16 = o % 16 ∧
    (o < 16 → (o ||| ((t <<< 4) % 256)) / 16 % 16 = t) := by
  decide

theorem or_high_nibble (o t : Nat) (ht : t < 16) :
    ((o ||| ((t <<< 4) % 256)) % 256) % 16 = o % 16 ∧
    (o < 16 → ((o ||| ((t <<< 4) % 256)) % 256) / 16 % 16 = t) := by
  have h := or_mod_two_pow o ((t <<< 4) % 256) 8
  have e : (2 : Nat) ^ 8 = 256 := by norm_num
  rw [e] at h
  rw [h, Nat.mod_mod]
  have hf := or_high_nibble_fin (o % 256) (Nat.mod_lt _ (by norm_num)) t ht
  refine ⟨?_, ?_⟩
  · rw [hf.1]; omega
  · intro ho
    have : o % 256 = o := Nat.mod_eq_of_lt (by omega)
    rw [this] at hf ⊢
    exact hf.2 ho

set_option maxRecDepth 100000 in
theorem escape_word_fin : ∀ n < 256,
    (0xF ||| (0xD <<< 4) ||| (n <<< 8)) % 65536 = 15 + 16 * 13 + 256 * n ∧
    (0xF ||| (0xE <<< 4) ||| (n <<< 8)) % 65536 = 15 + 16 * 14 + 256 * n := by
  decide

theorem mid_word_fin : ∀ a < 16,
    (0xD ||| (a <<< 4)) % 65536 = 13 + 16 * a ∧ (0xE ||| (a <<< 4)) % 65536 = 14 + 16 * a := by
  decide

set_option maxRecDepth 100000 in
theorem or_shift_fin : ∀ a < 16, ∀ b < 16, a ||| (b <<< 4) = a + 16 * b := by
  decide

/-! ## The nibble accessors -/

theorem hex_in_eq_nibbleAt (data : Buf) (p : Nat) : hex_in data p = nibbleAt data p := by
  unfold hex_in nibbleAt
  rcases Nat.mod_two_eq_zero_or_one p with h | h
  · rw [h, and_fifteen]; simp only [Nat.zero_mul, Nat.shiftRight_zero, if_true]; omega
  · rw [h, and_fifteen]; simp only [Nat.one_mul, shiftRight_four]
    rw [if_neg (by omega)]; omega

theorem nibbleAt_lt (data : Buf) (p : Nat) : nibbleAt data p < 16 := by
  unfold nibbleAt; split <;> omega

theorem hex_out_frame (o : Buf) (p h idx : Nat) (hne : idx ≠ p / 2) :
    hex_out o p h idx = o idx := by
  unfold hex_out store; split <;> simp [hne]

theorem hex_out_even (o : Buf) (p h : Nat) (hp : p % 2 = 0) :
    hex_out o p h (p / 2) = h % 16 := by
  unfold hex_out store
  rw [if_pos hp, and_fifteen]; simp only [if_true]; omega

theorem hex_out_congr (o : Buf) (p h h2 : Nat) (e : h % 16 = h2 % 16) :
    hex_out o p h = hex_out o p h2 := by
  unfold hex_out; rw [and_fifteen, and_fifteen, e]

theorem nibbleAt_hex_out_lt (o : Buf) (p h j : Nat) (hj : j < p) :
    nibbleAt (hex_out o p h) j = nibbleAt o j := by
  by_cases hb : j / 2 = p / 2
  · have hp : p % 2 = 1 := by omega
    have hj2 : j % 2 = 0 := by omega
    unfold nibbleAt
    rw [if_pos hj2, if_pos hj2, hb]
    unfold hex_out store
    rw [if_neg (by omega), and_fifteen]; simp only [if_true]
    exact (or_high_nibble (o (p / 2)) (h % 16) (Nat.mod_lt _ (by norm_num))).1
  · unfold nibbleAt
    rw [hex_out_frame o p h (j / 2) hb]

theorem nibbleAt_hex_out_self (o : Buf) (p h : Nat) (hinv : p % 2 = 1 → o (p / 2) < 16) :
    nibbleAt (hex_out o p h) p = h % 16 := by
  rcases Nat.mod_two_eq_zero_or_one p with hp | hp
  · unfold nibbleAt
    rw [if_pos hp, hex_out_even o p h hp]; omega
  · unfold nibbleAt
    rw [if_neg (by omega)]
    unfold hex_out store
    rw [if_neg (by omega), and_fifteen]; simp only [if_true]
    exact (or_high_nibble (o (p / 2)) (h % 16) (Nat.mod_lt _ (by norm_num))).2 (hinv hp)

/-! ## Sequential nibble writes -/

theorem writeNibbles_append (o : Buf) (p : Nat) (a b : List Nat) :
    writeNibbles o p (a ++ b) = writeNibbles (writeNibbles o p a) (p + a.length) b := by
  induction a generalizing o p with
  | nil => simp [writeNibbles]
  | cons h t ih =>
    rw [List.cons_append]
    simp only [writeNibbles, List.length_cons]
    rw [ih]
    have : p + 1 + t.length = p + (t.length + 1) := by omega
    rw [this]

theorem writeNibbles_frame (o : Buf) (p : Nat) (nibs : List Nat) (idx : Nat)
    (h : idx < p / 2 ∨ p + nibs.length ≤ 2 * idx) : writeNibbles o p nibs idx = o idx := by
  induction nibs generalizing o p with
  | nil => rfl
  | cons a t ih =>
    simp only [writeNibbles]
    simp only [List.length_cons] at h
    rw [ih (hex_out o p a) (p + 1) (by omega)]
    exact hex_out_frame o p a idx (by omega)

theorem nibbleAt_writeNibbles_lt (o : Buf) (p : Nat) (nibs : List Nat) (j : Nat) (hj : j < p) :
    nibbleAt (writeNibbles o p nibs) j = nibbleAt o j := by
  induction nibs generalizing o p with
  | nil => rfl
  | cons a t ih =>
    simp only [writeNibbles]
    rw [ih (hex_out o p a) (p + 1) (by omega)]
    exact nibbleAt_hex_out_lt o p a j hj

theorem NibblesAt_append (data : Buf) (p : Nat) (a b : List Nat) :
    NibblesAt data p (a ++ b) ↔ NibblesAt data p a ∧ NibblesAt data (p + a.length) b := by
  induction a generalizing p with
  | nil => simp [NibblesAt]
  | cons h t ih =>
    rw [List.cons_append]
    simp only [NibblesAt, List.length_cons, ih, and_assoc]
    have : p + 1 + t.length = p + (t.length + 1) := by omega
    rw [this]

theorem NibblesAt_writeNibbles (o : Buf) (p : Nat) (nibs : List Nat)
    (hinv : p % 2 = 1 → o (p / 2) < 16) (hn : ∀ h ∈ nibs, h < 16) :
    NibblesAt (writeNibbles o p nibs) p nibs := by
  induction nibs generalizing o p with
  | nil => trivial
  | cons a t ih =>
    have ha : a < 16 := hn a (List.mem_cons_self _ _)
    simp only [writeNibbles, NibblesAt]
    refine ⟨?_, ?_⟩
    · rw [hex_in_eq_nibbleAt, nibbleAt_writeNibbles_lt _ _ _ _ (by omega),
        nibbleAt_hex_out_self o p a hinv]
      omega
    · apply ih
      · intro hp
        have hp0 : p % 2 = 0 := by omega
        have e : (p + 1) / 2 = p / 2 := by omega
        rw [e, hex_out_even o p a hp0]; omega
      · intro h hh
        exact hn h (List.mem_cons_of_mem _ hh)

theorem NibblesAt_congr (d1 d2 : Buf) (p : Nat) (l : List Nat)
    (h : ∀ j, p ≤ j → j < p + l.length → nibbleAt d1 j = nibbleAt d2 j)
    (h1 : NibblesAt d1 p l) : NibblesAt d2 p l := by
  induction l generalizing p with
  | nil => trivial
  | cons a t ih =>
    simp only [NibblesAt] at h1 ⊢
    simp only [List.length_cons] at h
    refine ⟨?_, ih (p + 1) (fun j h3 h4 => h j (by omega) (by omega)) h1.2⟩
    rw [hex_in_eq_nibbleAt] at h1 ⊢
    rw [← h p (by omega) (by omega)]; exact h1.1

theorem NibblesAt_read (data : Buf) (p : Nat) (l : List Nat) (h : NibblesAt data p l) :
    (List.range l.length).map (fun j => nibbleAt data (p + j)) = l := by
  induction l generalizing p with
  | nil => rfl
  | cons a t ih =>
    simp only [NibblesAt] at h
    simp only [List.length_cons, List.range_succ_eq_map, List.map_cons, List.map_map]
    rw [hex_in_eq_nibbleAt] at h
    congr 1
    · exact h.1
    · refine Eq.trans ?_ (ih (p + 1) h.2)
      apply List.map_congr_left
      intro j _
      simp only [Function.comp, Nat.succ_eq_add_one]
      congr 1; omega

/-! ## Code words -/

theorem codeWord_small (d : Int) (h1 : -6 ≤ d) (h2 : d ≤ 6) : codeWord d = [(d + 6).toNat] := by
  unfold codeWord; rw [if_pos ⟨h1, h2⟩]

theorem codeWord_mid (d : Int) (h1 : 7 ≤ d.natAbs) (h2 : d.natAbs ≤ 19) :
    codeWord d = [if d < 0 then 0xD else 0xE, d.natAbs - 6] := by
  unfold codeWord; rw [if_neg (by omega), if_pos ⟨h1, h2⟩]

theorem codeWord_escape (d : Int) (h1 : 20 ≤ d.natAbs) :
    codeWord d = [0xF, if d < 0 then 0xD else 0xE, d.natAbs % 16, d.natAbs / 16] := by
  unfold codeWord; rw [if_neg (by omega), if_neg (by omega)]

theorem codeWord_length_pos (d : Int) : 1 ≤ (codeWord d).length := by
  unfold codeWord; split_ifs <;> simp

theorem codeWord_length_le (d : Int) : (codeWord d).length ≤ 4 := by
  unfold codeWord; split_ifs <;> simp

theorem codeWord_lt (d : Int) (h1 : -255 ≤ d) (h2 : d ≤ 255) : ∀ h ∈ codeWord d, h < 16 := by
  intro h hh
  unfold codeWord at hh
  split_ifs at hh <;> simp at hh <;> omega

theorem refStream_length (prev : Int) (S : List Nat) :
    (refStream prev S).length = totalNibbles prev S := by
  induction S generalizing prev with
  | nil => rfl
  | cons s rest ih => simp [refStream, totalNibbles, ih]

theorem totalNibbles_le (prev : Int) (S : List Nat) : totalNibbles prev S ≤ 4 * S.length := by
  induction S generalizing prev with
  | nil => simp [totalNibbles]
  | cons s rest ih =>
    have := codeWord_length_le (prev - (s : Int))
    have := ih (s : Int)
    simp only [totalNibbles, List.length_cons]; omega

theorem totalNibbles_ge (prev : Int) (S : List Nat) : S.length ≤ totalNibbles prev S := by
  induction S generalizing prev with
  | nil => simp [totalNibbles]
  | cons s rest ih =>
    have := codeWord_length_pos (prev - (s : Int))
    have := ih (s : Int)
    simp only [totalNibbles, List.length_cons]; omega

theorem refStream_lt (prev : Int) (S : List Nat) (hp : 0 ≤ prev ∧ prev ≤ 255) (hS : IsBytes S) :
    ∀ h ∈ refStream prev S, h < 16 := by
  induction S generalizing prev with
  | nil => intro h hh; simp [refStream] at hh
  | cons s rest ih =>
    intro h hh
    have hs : s < 256 := hS s (List.mem_cons_self _ _)
    simp only [refStream, List.mem_append] at hh
    rcases hh with hh | hh
    · exact codeWord_lt _ (by omega) (by omega) h hh
    · exact ih (s : Int) (by omega) (fun x hx => hS x (List.mem_cons_of_mem _ hx)) h hh

/-! ## The encoder -/

theorem encWord_small (d : Int) (h1 : -6 ≤ d) (h2 : d ≤ 6) :
    encWord d = Run.ret ((d + 6).toNat, 4) := by
  unfold encWord
  rw [if_neg (by omega), if_pos ⟨h1, h2⟩]
  have e : ((d + 6) % 65536).toNat = (d + 6).toNat := by omega
  simp only [e]
  rw [if_pos (by omega)]

theorem encWord_mid (d : Int) (h1 : 7 ≤ d.natAbs) (h2 : d.natAbs ≤ 19) :
    encWord d = Run.ret ((if d < 0 then 0xD else 0xE) + 16 * (d.natAbs - 6), 8) := by
  unfold encWord
  rw [if_neg (by omega), if_neg (by omega), if_pos (by omega)]
  have e : ((((d.natAbs : Nat) : Int) - 6) % 256).toNat = d.natAbs - 6 := by omega
  simp only [e]
  rw [if_pos (by omega)]
  have hm := mid_word_fin (d.natAbs - 6) (by omega)
  by_cases hd : d < 0
  · simp only [hd, if_true]; rw [hm.1]
  · simp only [hd, if_false]; rw [hm.2]

theorem encWord_escape (d : Int) (h1 : 20 ≤ d.natAbs) (h2 : d.natAbs ≤ 255) :
    encWord d = Run.ret (15 + 16 * (if d < 0 then 0xD else 0xE) + 256 * d.natAbs, 16) := by
  unfold encWord
  rw [if_neg (by omega), if_neg (by omega), if_neg (by omega)]
  have hm := escape_word_fin d.natAbs (by omega)
  by_cases hd : d < 0
  · simp only [hd, if_true]; rw [hm.1]
  · simp only [hd, if_false]; rw [hm.2]

theorem encLoop_cons (count : Nat) (x : Nat) (rest : List Nat) (last : Int) (p : Nat) (o : Buf)
    (h1 : -255 ≤ last - (x : Int)) (h2 : last - (x : Int) ≤ 255) :
    encLoop count (x :: rest) last p o =
      if p + (codeWord (last - (x : Int))).length ≥ count * 2 then Run.ret (-1, o)
      else encLoop count rest (x : Int) (p + (codeWord (last - (x : Int))).length)
        (writeNibbles o p (codeWord (last - (x : Int)))) := by
  rw [encLoop]
  generalize last - (x : Int) = d at h1 h2
  by_cases hs : -6 ≤ d ∧ d ≤ 6
  · rw [encWord_small d hs.1 hs.2, codeWord_small d hs.1 hs.2]
    simp only [writeNibbles, List.length_cons, List.length_nil]
    rfl
  · by_cases hm : d.natAbs ≤ 19
    · rw [encWord_mid d (by omega) hm, codeWord_mid d (by omega) hm]
      simp only [writeNibbles, List.length_cons, List.length_nil]
      have e1 : hex_out o p (((if d < 0 then 0xD else 0xE) + 16 * (d.natAbs - 6)) >>> 0)
          = hex_out o p (if d < 0 then 0xD else 0xE) := by
        apply hex_out_congr; rw [Nat.shiftRight_zero]; split_ifs <;> omega
      have e2 : ∀ b : Buf, hex_out b (p + 1) (((if d < 0 then 0xD else 0xE) + 16 * (d.natAbs - 6)) >>> 4)
          = hex_out b (p + 1) (d.natAbs - 6) := by
        intro b; apply hex_out_congr; rw [shiftRight_four]; split_ifs <;> omega
      rw [e1, e2]
      rfl
    · rw [encWord_escape d (by omega) (by omega), codeWord_escape d (by omega)]
      simp only [writeNibbles, List.length_cons, List.length_nil]
      have e1 : hex_out o p ((15 + 16 * (if d < 0 then 0xD else 0xE) + 256 * d.natAbs) >>> 0)
          = hex_out o p 0xF := by
        apply hex_out_congr; rw [Nat.shiftRight_zero]; split_ifs <;> omega
      have e2 : ∀ b : Buf,
          hex_out b (p + 1) ((15 + 16 * (if d < 0 then 0xD else 0xE) + 256 * d.natAbs) >>> 4)
          = hex_out b (p + 1) (if d < 0 then 0xD else 0xE) := by
        intro b; apply hex_out_congr; rw [shiftRight_four]; split_ifs <;> omega
      have e3 : ∀ b : Buf,
          hex_out b (p + 2) ((15 + 16 * (if d < 0 then 0xD else 0xE) + 256 * d.natAbs) >>> 8)
          = hex_out b (p + 2) (d.natAbs % 16) := by
        intro b; apply hex_out_congr; rw [shiftRight_eight]; split_ifs <;> omega
      have e4 : ∀ b : Buf,
          hex_out b (p + 3) ((15 + 16 * (if d < 0 then 0xD else 0xE) + 256 * d.natAbs) >>> 12)
          = hex_out b (p + 3) (d.natAbs / 16) := by
        intro b; apply hex_out_congr; rw [shiftRight_twelve]; split_ifs <;> omega
      rw [e1, e2, e3, e4]
      rfl

theorem IsBytes_tail {s : Nat} {rest : List Nat} (h : IsBytes (s :: rest)) : IsBytes rest :=
  fun x hx => h x (List.mem_cons_of_mem _ hx)

theorem IsBytes_head {s : Nat} {rest : List Nat} (h : IsBytes (s :: rest)) : s < 256 :=
  h s (List.mem_cons_self _ _)

/-- When no code word reaches the capacity limit, the loop returns the byte
length and has written the reference stream. -/
theorem encLoop_ok (count : Nat) (S : List Nat) (last : Int) (p : Nat) (o : Buf)
    (hS : IsBytes S) (hl : 0 ≤ last ∧ last ≤ 255)
    (hfit : S = [] ∨ p + totalNibbles last S < count * 2) :
    encLoop count S last p o =
      Run.ret ((((p + totalNibbles last S + 1) / 2 : Nat) : Int),
        writeNibbles o p (refStream last S)) := by
  induction S generalizing last p o with
  | nil => simp [encLoop, totalNibbles, refStream, writeNibbles]
  | cons s rest ih =>
    have hs := IsBytes_head hS
    have hfit2 : p + totalNibbles last (s :: rest) < count * 2 := by
      rcases hfit with h | h
      · cases h
      · exact h
    simp only [totalNibbles] at hfit2
    rw [encLoop_cons count s rest last p o (by omega) (by omega), if_neg (by omega)]
    rw [ih (s : Int) _ _ (IsBytes_tail hS) (by omega) (Or.inr (by omega))]
    simp only [totalNibbles, refStream, writeNibbles_append]
    have e : p + (codeWord (last - (s : Int))).length + totalNibbles (s : Int) rest + 1
        = p + ((codeWord (last - (s : Int))).length + totalNibbles (s : Int) rest) + 1 := by omega
    rw [e]

/-- When some code word reaches the capacity limit, the loop returns `-1`. -/
theorem encLoop_overflow (count : Nat) (S : List Nat) (last : Int) (p : Nat) (o : Buf)
    (hS : IsBytes S) (hl : 0 ≤ last ∧ last ≤ 255)
    (hne : S ≠ []) (hbig : count * 2 ≤ p + totalNibbles last S) :
    ∃ o2, encLoop count S last p o = Run.ret (-1, o2) := by
  induction S generalizing last p o with
  | nil => exact absurd rfl hne
  | cons s rest ih =>
    have hs := IsBytes_head hS
    rw [encLoop_cons count s rest last p o (by omega) (by omega)]
    by_cases hc : p + (codeWord (last - (s : Int))).length ≥ count * 2
    · rw [if_pos hc]; exact ⟨o, rfl⟩
    · rw [if_neg hc]
      simp only [totalNibbles] at hbig
      apply ih (s : Int) _ _ (IsBytes_tail hS) (by omega)
      · intro h
        rw [h] at hbig
        simp only [totalNibbles] at hbig
        omega
      · omega

/-- The loop always returns, and leaves every byte at index `count` or beyond
as it was. -/
theorem encLoop_frame (count : Nat) (S : List Nat) (last : Int) (p : Nat) (o : Buf)
    (hS : IsBytes S) (hl : 0 ≤ last ∧ last ≤ 255) :
    ∃ k o2, encLoop count S last p o = Run.ret (k, o2) ∧
      ∀ idx, count ≤ idx → o2 idx = o idx := by
  induction S generalizing last p o with
  | nil => exact ⟨_, o, rfl, fun _ _ => rfl⟩
  | cons s rest ih =>
    have hs := IsBytes_head hS
    rw [encLoop_cons count s rest last p o (by omega) (by omega)]
    by_cases hc : p + (codeWord (last - (s : Int))).length ≥ count * 2
    · rw [if_pos hc]; exact ⟨-1, o, rfl, fun _ _ => rfl⟩
    · rw [if_neg hc]
      obtain ⟨k, o2, he, hf⟩ := ih (s : Int) (p + (codeWord (last - (s : Int))).length)
        (writeNibbles o p (codeWord (last - (s : Int)))) (IsBytes_tail hS) (by omega)
      refine ⟨k, o2, he, ?_⟩
      intro idx hidx
      rw [hf idx hidx]
      exact writeNibbles_frame o p _ idx (Or.inr (by omega))

/-- What a successful `encode4` has computed. -/
theorem encode4_success (S : List Nat) (out : Buf) (C : Nat) (k : Int) (packed : Buf)
    (hS : IsBytes S) (henc : encode4 S out C = Run.ret (k, packed)) (hk : 0 ≤ k) :
    (S = [] ∨ totalNibbles 0 S < C * 2) ∧
    k = (((totalNibbles 0 S + 1) / 2 : Nat) : Int) ∧
    packed = writeNibbles out 0 (refStream 0 S) := by
  by_cases hfit : S = [] ∨ totalNibbles 0 S < C * 2
  · have h := encLoop_ok C S 0 0 out hS (by omega) (by simpa using hfit)
    unfold encode4 at henc
    rw [h] at henc
    simp only [Nat.zero_add, Run.ret.injEq, Prod.mk.injEq] at henc
    exact ⟨hfit, henc.1.symm, henc.2.symm⟩
  · have hne : S ≠ [] := fun h => hfit (Or.inl h)
    have hbig : C * 2 ≤ 0 + totalNibbles 0 S := by
      have : ¬ totalNibbles 0 S < C * 2 := fun h => hfit (Or.inr h)
      omega
    obtain ⟨o2, h⟩ := encLoop_overflow C S 0 0 out hS (by omega) hne hbig
    unfold encode4 at henc
    rw [h] at henc
    simp only [Run.ret.injEq, Prod.mk.injEq] at henc
    omega


/-! ## The decoder -/

theorem decDelta_short (data : Buf) (bytes : Int) (p h0 : Nat)
    (n0 : hex_in data p = h0) (hh : h0 ≤ 12) :
    decDelta data bytes p = Run.ret ((h0 : Int) - 6, p + 1) := by
  unfold decDelta
  dsimp only
  rw [n0, if_pos hh, if_pos (by omega)]

theorem decDelta_mid (data : Buf) (bytes : Int) (p h0 a : Nat)
    (n0 : hex_in data p = h0) (hh : h0 = 13 ∨ h0 = 14) (n1 : hex_in data (p + 1) = a)
    (ha : a ≤ 13) (hb : ((p + 1 : Nat) : Int) < bytes * 2) :
    decDelta data bytes p =
      Run.ret (if h0 = 13 then -((a : Int) + 6) else (a : Int) + 6, p + 2) := by
  unfold decDelta
  dsimp only
  rw [n0, n1, if_neg (by omega), if_neg (by omega), if_pos hh, if_pos (by split_ifs <;> omega)]

theorem decDelta_escape (data : Buf) (bytes : Int) (p h1 a b : Nat)
    (n0 : hex_in data p = 15) (n1 : hex_in data (p + 1) = h1) (hh : h1 = 13 ∨ h1 = 14)
    (n2 : hex_in data (p + 2) = a) (n3 : hex_in data (p + 3) = b)
    (hb : ((p + 2 : Nat) : Int) < bytes * 2 - 1) :
    decDelta data bytes p =
      Run.ret (if h1 = 13 then -(((a ||| (b <<< 4) : Nat)) : Int) else ((a ||| (b <<< 4) : Nat) : Int),
        p + 4) := by
  unfold decDelta
  dsimp only
  rw [n0, n1, n2, n3, if_neg (by omega), if_neg (by omega), if_neg (by omega),
    if_neg (by omega), if_neg (by omega), if_neg (by omega)]

/-- Reading back one code word gives its delta and advances the cursor by
the length of the code word. -/
theorem decDelta_codeWord (data : Buf) (bytes : Int) (p : Nat) (d : Int)
    (h1 : -255 ≤ d) (h2 : d ≤ 255) (hn : NibblesAt data p (codeWord d))
    (hb : ((p + (codeWord d).length : Nat) : Int) ≤ bytes * 2) :
    decDelta data bytes p = Run.ret (d, p + (codeWord d).length) := by
  by_cases hs : -6 ≤ d ∧ d ≤ 6
  · rw [codeWord_small d hs.1 hs.2] at hn hb ⊢
    simp only [NibblesAt, and_true] at hn
    simp only [List.length_cons, List.length_nil] at hb ⊢
    have hh : (d + 6).toNat ≤ 12 := by omega
    rw [decDelta_short data bytes p _ hn hh]
    simp only [Run.ret.injEq, Prod.mk.injEq, and_true]; omega
  · by_cases hm : d.natAbs ≤ 19
    · rw [codeWord_mid d (by omega) hm] at hn hb ⊢
      simp only [NibblesAt, and_true] at hn
      simp only [List.length_cons, List.length_nil] at hb ⊢
      obtain ⟨n0, n1⟩ := hn
      have ha : d.natAbs - 6 ≤ 13 := by omega
      have hb2 : ((p + 1 : Nat) : Int) < bytes * 2 := by push_cast at hb ⊢; omega
      by_cases hd : d < 0
      · simp only [hd, if_true] at n0
        rw [decDelta_mid data bytes p _ _ n0 (Or.inl rfl) n1 ha hb2]
        simp only [Run.ret.injEq, Prod.mk.injEq, if_true, and_true]; omega
      · simp only [hd, if_false] at n0
        rw [decDelta_mid data bytes p _ _ n0 (Or.inr rfl) n1 ha hb2]
        rw [if_neg (by decide)]
        simp only [Run.ret.injEq, Prod.mk.injEq, and_true]; omega
    · rw [codeWord_escape d (by omega)] at hn hb ⊢
      simp only [NibblesAt, and_true] at hn
      simp only [List.length_cons, List.length_nil] at hb ⊢
      obtain ⟨n0, n1, n2, n3⟩ := hn
      have hv : (d.natAbs % 16) ||| ((d.natAbs / 16) <<< 4) = d.natAbs := by
        rw [or_shift_fin (d.natAbs % 16) (by omega) (d.natAbs / 16) (by omega)]; omega
      have hb2 : ((p + 2 : Nat) : Int) < bytes * 2 - 1 := by push_cast at hb ⊢; omega
      by_cases hd : d < 0
      · simp only [hd, if_true] at n1
        rw [decDelta_escape data bytes p _ _ _ n0 n1 (Or.inl rfl) n2 n3 hb2, hv]
        simp only [Run.ret.injEq, Prod.mk.injEq, if_true, and_true]; omega
      · simp only [hd, if_false] at n1
        rw [decDelta_escape data bytes p _ _ _ n0 n1 (Or.inr rfl) n2 n3 hb2, hv]
        rw [if_neg (by decide)]
        simp only [Run.ret.injEq, Prod.mk.injEq, and_true]; omega

/-- One loop iteration on a well-formed code word writes the sample back. -/
theorem decBody_codeWord (data : Buf) (bytes : Int) (i : Nat) (last : Int) (p : Nat) (o : Buf)
    (s : Nat) (hs : s < 256) (hl : 0 ≤ last ∧ last ≤ 255)
    (hn : NibblesAt data p (codeWord (last - (s : Int))))
    (hb : ((p + (codeWord (last - (s : Int))).length : Nat) : Int) ≤ bytes * 2) :
    decBody data bytes i last p o =
      Run.ret (i + 1, (s : Int), p + (codeWord (last - (s : Int))).length, store o i s) := by
  unfold decBody
  rw [decDelta_codeWord data bytes p _ (by omega) (by omega) hn hb]
  dsimp only
  have e : last - (last - (s : Int)) = (s : Int) := by omega
  rw [e, if_pos (by omega)]
  have e2 : ((s : Int) % 256).toNat = s := by omega
  rw [e2]

/-- Decoding the reference stream of `S` with exactly `S.length` samples still
requested returns at the requested count, with the cursor at the end of the
stream and the samples written. -/
theorem decLoop_ok (data : Buf) (bytes : Int) (count : Nat) (S : List Nat) (last : Int)
    (i p : Nat) (o : Buf) (fuel : Nat)
    (hS : IsBytes S) (hl : 0 ≤ last ∧ last ≤ 255)
    (hn : NibblesAt data p (refStream last S))
    (hb : ((p + totalNibbles last S : Nat) : Int) ≤ bytes * 2)
    (hc : i + S.length = count) (hf : S.length ≤ fuel) :
    decLoop data bytes count fuel i last p o =
      Run.ret (count, p + totalNibbles last S, writeBytes o i S) := by
  induction S generalizing last i p o fuel with
  | nil =>
    simp only [List.length_nil, Nat.add_zero] at hc
    cases fuel with
    | zero => rw [decLoop, if_neg (by omega)]; simp [totalNibbles, writeBytes, hc]
    | succ f => rw [decLoop, if_neg (by omega)]; simp [totalNibbles, writeBytes, hc]
  | cons s rest ih =>
    have hs := IsBytes_head hS
    simp only [List.length_cons] at hc hf
    simp only [refStream, NibblesAt_append] at hn
    simp only [totalNibbles] at hb
    have hpos := codeWord_length_pos (last - (s : Int))
    cases fuel with
    | zero => omega
    | succ f =>
      rw [decLoop, if_pos ⟨by omega, by omega⟩]
      rw [decBody_codeWord data bytes i last p o s hs hl hn.1 (by omega)]
      dsimp only
      rw [ih (s : Int) (i + 1) _ _ f (IsBytes_tail hS) (by omega) hn.2 (by push_cast at hb ⊢; omega)
        (by omega) (by omega)]
      simp only [totalNibbles, writeBytes, Nat.add_assoc]

/-! ## Sequential sample writes -/

theorem writeBytes_frame (o : Buf) (i : Nat) (S : List Nat) (idx : Nat)
    (h : idx < i ∨ i + S.length ≤ idx) : writeBytes o i S idx = o idx := by
  induction S generalizing o i with
  | nil => rfl
  | cons s rest ih =>
    simp only [List.length_cons] at h
    simp only [writeBytes]
    rw [ih (store o i s) (i + 1) (by omega)]
    unfold store
    rw [if_neg (by omega)]

theorem writeBytes_read (o : Buf) (i : Nat) (S : List Nat) :
    (List.range S.length).map (fun j => writeBytes o i S (i + j)) = S := by
  induction S generalizing o i with
  | nil => rfl
  | cons s rest ih =>
    simp only [List.length_cons, List.range_succ_eq_map, List.map_cons, List.map_map, writeBytes]
    congr 1
    · rw [writeBytes_frame _ _ _ _ (Or.inl (by omega))]
      simp [store]
    · refine Eq.trans ?_ (ih (store o i s) (i + 1))
      apply List.map_congr_left
      intro j _
      simp only [Function.comp, Nat.succ_eq_add_one]
      congr 1; omega

theorem readBytes_writeBytes (o : Buf) (S : List Nat) :
    readBytes (writeBytes o 0 S) S.length = S := by
  have h := writeBytes_read o 0 S
  simp only [Nat.zero_add] at h
  exact h

theorem readNibbles_of_NibblesAt (data : Buf) (l : List Nat) (h : NibblesAt data 0 l) :
    readNibbles data l.length = l := by
  have h2 := NibblesAt_read data 0 l h
  simp only [Nat.zero_add] at h2
  exact h2

theorem refStream_append (prev : Int) (A B : List Nat) :
    ∃ l, refStream prev (A ++ B) = refStream prev A ++ l := by
  induction A generalizing prev with
  | nil => exact ⟨refStream prev B, rfl⟩
  | cons a t ih =>
    obtain ⟨l, hl⟩ := ih (a : Int)
    refine ⟨l, ?_⟩
    rw [List.cons_append]
    simp only [refStream, hl, List.append_assoc]

theorem totalNibbles_take_le (prev : Int) (S : List Nat) (m : Nat) :
    totalNibbles prev (S.take m) ≤ totalNibbles prev S := by
  obtain ⟨l, hl⟩ := refStream_append prev (S.take m) (S.drop m)
  rw [List.take_append_drop] at hl
  have h := congrArg List.length hl
  rw [List.length_append, refStream_length, refStream_length] at h
  omega

theorem NibblesAt_take (data : Buf) (prev : Int) (S : List Nat) (m : Nat)
    (h : NibblesAt data 0 (refStream prev S)) : NibblesAt data 0 (refStream prev (S.take m)) := by
  obtain ⟨l, hl⟩ := refStream_append prev (S.take m) (S.drop m)
  rw [List.take_append_drop] at hl
  rw [hl, NibblesAt_append] at h
  exact h.1

theorem IsBytes_take {S : List Nat} (h : IsBytes S) (m : Nat) : IsBytes (S.take m) :=
  fun x hx => h x (List.mem_of_mem_take hx)

/-- The packed buffer of a successful `encode4` holds the reference stream. -/
theorem NibblesAt_encode4 (S : List Nat) (out : Buf) (C : Nat) (k : Int) (packed : Buf)
    (hS : IsBytes S) (henc : encode4 S out C = Run.ret (k, packed)) (hk : 0 ≤ k) :
    NibblesAt packed 0 (refStream 0 S) := by
  obtain ⟨_, _, hp⟩ := encode4_success S out C k packed hS henc hk
  rw [hp]
  exact NibblesAt_writeNibbles out 0 _ (by omega) (refStream_lt 0 S (by omega) hS)

/-- Decoding `m` samples from any buffer that carries the first `m` code words
of a successfully encoded `S` stops with the cursor at the end of the `m`-th
code word and has written the first `m` samples. -/
theorem decLoop_take (S : List Nat) (out : Buf) (C : Nat) (k : Int) (packed : Buf)
    (hS : IsBytes S) (henc : encode4 S out C = Run.ret (k, packed)) (hk : 0 ≤ k)
    (m : Nat) (hm : m ≤ S.length) (data : Buf)
    (hdata : ∀ j, j < totalNibbles 0 (S.take m) → nibbleAt data j = nibbleAt packed j)
    (dec0 : Buf) :
    decLoop data k m m 0 0 0 dec0 =
      Run.ret (m, totalNibbles 0 (S.take m), writeBytes dec0 0 (S.take m)) := by
  have hn := NibblesAt_take packed 0 S m (NibblesAt_encode4 S out C k packed hS henc hk)
  have hn2 : NibblesAt data 0 (refStream 0 (S.take m)) := by
    apply NibblesAt_congr packed data 0 _ _ hn
    intro j _ hj
    rw [refStream_length] at hj
    exact (hdata j (by omega)).symm
  obtain ⟨_, hkk, _⟩ := encode4_success S out C k packed hS henc hk
  have hle := totalNibbles_take_le 0 S m
  have hlen : (S.take m).length = m := List.length_take_of_le hm
  have h := decLoop_ok data k m (S.take m) 0 0 0 dec0 m (IsBytes_take hS m) (by omega) hn2
    (by rw [hkk]; push_cast; omega) (by omega) (by omega)
  rw [h, Nat.zero_add]

theorem decode4_of_decLoop (data : Buf) (bytes : Int) (out : Buf) (count i p : Nat) (o : Buf)
    (h : decLoop data bytes count count 0 0 0 out = Run.ret (i, p, o)) :
    decode4 data bytes out count = Run.ret (i, o) := by
  unfold decode4; rw [h]

theorem nibbleAt_of_bytes_eq (d1 d2 : Buf) (k : Int) (T : Nat)
    (hk : k = (((T + 1) / 2 : Nat) : Int))
    (h : ∀ idx : Nat, (idx : Int) < k → d1 idx = d2 idx) :
    ∀ j, j < T → nibbleAt d1 j = nibbleAt d2 j := by
  intro j hj
  have e : d1 (j / 2) = d2 (j / 2) := h (j / 2) (by rw [hk]; omega)
  unfold nibbleAt
  rw [e]

theorem decBody_index (data : Buf) (bytes : Int) (i : Nat) (last : Int) (p : Nat) (o : Buf)
    (i2 : Nat) (last2 : Int) (p2 : Nat) (o2 : Buf)
    (h : decBody data bytes i last p o = Run.ret (i2, last2, p2, o2)) : i2 = i + 1 := by
  unfold decBody at h
  split at h
  · cases h
  · cases h
  · dsimp only at h
    split at h
    · simp only [Run.ret.injEq, Prod.mk.injEq] at h
      exact h.1.symm
    · cases h

/-- A run of `decode4` continues from every state it reaches. -/
theorem decLoop_of_Reach (data : Buf) (bytes : Int) (count : Nat) (out0 : Buf)
    (i : Nat) (last : Int) (p : Nat) (o : Buf)
    (hr : Reach data bytes count out0 i last p o) :
    i ≤ count ∧
    decLoop data bytes count count 0 0 0 out0 = decLoop data bytes count (count - i) i last p o := by
  induction hr with
  | start => exact ⟨Nat.zero_le _, rfl⟩
  | step hprev hc hb ih =>
    rename_i i last p o i2 last2 p2 o2
    have hi := decBody_index data bytes i last p o i2 last2 p2 o2 hb
    refine ⟨by omega, ?_⟩
    rw [ih.2]
    have e : count - i = (count - i2) + 1 := by omega
    rw [e, decLoop, if_pos hc, hb]

theorem decDelta_malformed (data : Buf) (bytes : Int) (p : Nat)
    (h : (nibbleAt data p = 0xF ∧ nibbleAt data (p + 1) ≠ 0xD ∧ nibbleAt data (p + 1) ≠ 0xE) ∨
      ((nibbleAt data p = 0xD ∨ nibbleAt data p = 0xE) ∧ bytes * 2 < ((p + 2 : Nat) : Int)) ∨
      (nibbleAt data p = 0xF ∧ bytes * 2 < ((p + 4 : Nat) : Int))) :
    decDelta data bytes p = Run.abort := by
  simp only [← hex_in_eq_nibbleAt] at h
  unfold decDelta
  dsimp only
  rcases h with ⟨h0, h1, h2⟩ | ⟨h0, hb⟩ | ⟨h0, hb⟩
  · rw [h0, if_neg (by omega)]
    split_ifs <;> first | rfl | omega
  · rw [if_neg (by omega), if_pos (by push_cast at hb ⊢; omega)]
  · rw [h0, if_neg (by omega)]
    by_cases c1 : ((p + 1 : Nat) : Int) < bytes * 2
    · rw [if_neg (by omega), if_neg (by omega), if_neg (by omega)]
      by_cases c2 : hex_in data (p + 1) = 0xD ∨ hex_in data (p + 1) = 0xE
      · rw [if_neg (by omega), if_pos (by push_cast at hb ⊢; omega)]
      · rw [if_pos c2]
    · rw [if_pos c1]

theorem decDelta_ne_stuck (data : Buf) (bytes : Int) (p : Nat) :
    decDelta data bytes p ≠ Run.stuck := by
  unfold decDelta
  dsimp only
  split_ifs <;> simp

theorem decBody_ne_stuck (data : Buf) (bytes : Int) (i : Nat) (last : Int) (p : Nat) (o : Buf) :
    decBody data bytes i last p o ≠ Run.stuck := by
  unfold decBody
  split
  · simp
  · rename_i h; exact absurd h (decDelta_ne_stuck data bytes p)
  · dsimp only; split_ifs <;> simp

/-- The iteration budget `count - i` is never used up: the model of the loop
either returns or aborts on an assertion. -/
theorem decLoop_ne_stuck (data : Buf) (bytes : Int) (count fuel i : Nat) (last : Int) (p : Nat)
    (o : Buf) (h : count ≤ i + fuel) :
    decLoop data bytes count fuel i last p o ≠ Run.stuck := by
  induction fuel generalizing i last p o with
  | zero => rw [decLoop, if_neg (by omega)]; simp
  | succ f ih =>
    rw [decLoop]
    split_ifs with hc
    · split
      · simp
      · rename_i hb; exact absurd hb (decBody_ne_stuck data bytes i last p o)
      · rename_i i2 last2 p2 o2 hb
        have hi := decBody_index data bytes i last p o i2 last2 p2 o2 hb
        exact ih i2 last2 p2 o2 (by omega)
    · simp

theorem decode4_ne_stuck (data : Buf) (bytes : Int) (out : Buf) (count : Nat) :
    decode4 data bytes out count ≠ Run.stuck := by
  unfold decode4
  split
  · simp
  · simp
  · rename_i h; exact absurd h (decLoop_ne_stuck data bytes count count 0 0 0 out (by omega))

/-! ## Properties of the codec -/

/-- C1 (evaluation at the failing input): with the one-sample input `[100]`
and the capacity `2 = 2 * N`, `encode4` returns the overflow signal `-1`, and
`decode4` called with that length and the expected count 1 returns 0 samples,
not 1. -/
theorem round_trip_fails_at_capacity_2N :
    2 * [100].length ≤ 2 ∧
    ∃ packed dec, encode4 [100] zeroBuf 2 = Run.ret (-1, packed) ∧
      decode4 packed (-1) zeroBuf [100].length = Run.ret (0, dec) :=
  ⟨Nat.le_refl _, _, _, rfl, rfl⟩

/-- C2: when `encode4` returns a length `k ≥ 0` for a byte sequence `S`,
`decode4` run on any buffer holding the first `k` packed bytes, with expected
sample count `S.length`, returns (no assertion fails), returns exactly
`S.length`, has written exactly `S` and has left the rest of the output
buffer alone. -/
theorem decode4_inverts_encode4 (S : List Nat) (out : Buf) (C : Nat) (k : Int) (packed : Buf)
    (hS : IsBytes S) (henc : encode4 S out C = Run.ret (k, packed)) (hk : 0 ≤ k)
    (data : Buf) (hdata : ∀ idx : Nat, (idx : Int) < k → data idx = packed idx) (dec0 : Buf) :
    ∃ dec, decode4 data k dec0 S.length = Run.ret (S.length, dec) ∧
      readBytes dec S.length = S ∧ ∀ idx, S.length ≤ idx → dec idx = dec0 idx := by
  obtain ⟨_, hkk, _⟩ := encode4_success S out C k packed hS henc hk
  have hd := nibbleAt_of_bytes_eq data packed k (totalNibbles 0 S) hkk hdata
  have h := decLoop_take S out C k packed hS henc hk S.length (Nat.le_refl _) data
    (by rw [List.take_length]; exact hd) dec0
  rw [List.take_length] at h
  refine ⟨writeBytes dec0 0 S, decode4_of_decLoop _ _ _ _ _ _ _ h, readBytes_writeBytes dec0 S, ?_⟩
  intro idx hidx
  exact writeBytes_frame dec0 0 S idx (Or.inr (by omega))


theorem decode4_inverts_encode4_witness :
    IsBytes [3, 1, 40, 200] ∧
    encode4 [3, 1, 40, 200] zeroBuf 8 =
      Run.ret (5, writeNibbles zeroBuf 0 [3, 8, 15, 13, 7, 2, 15, 13, 0, 10]) ∧
    (0 : Int) ≤ 5 ∧
    ∃ dec, decode4 (writeNibbles zeroBuf 0 [3, 8, 15, 13, 7, 2, 15, 13, 0, 10]) 5 zeroBuf
        [3, 1, 40, 200].length = Run.ret ([3, 1, 40, 200].length, dec) ∧
      readBytes dec [3, 1, 40, 200].length = [3, 1, 40, 200] ∧
      ∀ idx, [3, 1, 40, 200].length ≤ idx → dec idx = zeroBuf idx :=
  ⟨by decide, rfl, by decide,
    decode4_inverts_encode4 [3, 1, 40, 200] zeroBuf 8 5
      (writeNibbles zeroBuf 0 [3, 8, 15, 13, 7, 2, 15, 13, 0, 10]) (by decide) rfl (by decide)
      (writeNibbles zeroBuf 0 [3, 8, 15, 13, 7, 2, 15, 13, 0, 10]) (fun _ _ => rfl) zeroBuf⟩

/-- C3 (evaluation at the failing input): for the one-sample input `[100]`
and the capacity `2 = 2 * N`, `encode4` returns the overflow signal `-1`
whatever the output buffer holds. -/
theorem encode4_overflows_at_capacity_2N (out : Buf) :
    2 * [100].length ≤ 2 ∧ encode4 [100] out 2 = Run.ret (-1, out) :=
  ⟨Nat.le_refl _, rfl⟩

/-- C4 (evaluation at the failing input): the code word of the only sample of
`[100]` has 4 nibbles, which fill the `2 * 2` nibble slots of a 2-byte buffer
without exceeding them, and `encode4` still returns `-1`. -/
theorem encode4_overflow_on_exact_fit (out : Buf) :
    totalNibbles 0 [100] = 4 ∧ 0 + (codeWord (0 - 100)).length ≤ 2 * 2 ∧
      encode4 [100] out 2 = Run.ret (-1, out) :=
  ⟨rfl, by decide, rfl⟩

/-- C5: when `encode4` succeeds, the nibbles read from the output (low half
of byte `j / 2` for even `j`, high half for odd `j`) are, in order, the code
words of the deltas `s_{i-1} - s_i` with `s_{-1} = 0`. -/
theorem encode4_writes_refStream (S : List Nat) (out : Buf) (C : Nat) (k : Int) (packed : Buf)
    (hS : IsBytes S) (henc : encode4 S out C = Run.ret (k, packed)) (hk : 0 ≤ k) :
    readNibbles packed (refStream 0 S).length = refStream 0 S :=
  readNibbles_of_NibblesAt packed _ (NibblesAt_encode4 S out C k packed hS henc hk)


theorem encode4_writes_refStream_witness :
    IsBytes [10, 12, 40] ∧
    encode4 [10, 12, 40] zeroBuf 4 = Run.ret (4, writeNibbles zeroBuf 0 [13, 4, 4, 15, 13, 12, 1]) ∧
    (0 : Int) ≤ 4 ∧
    readNibbles (writeNibbles zeroBuf 0 [13, 4, 4, 15, 13, 12, 1]) (refStream 0 [10, 12, 40]).length
      = refStream 0 [10, 12, 40] :=
  ⟨by decide, rfl, by decide,
    encode4_writes_refStream [10, 12, 40] zeroBuf 4 4
      (writeNibbles zeroBuf 0 [13, 4, 4, 15, 13, 12, 1]) (by decide) rfl (by decide)⟩

/-- C6: when `encode4` succeeds, the returned length is `ceil(T / 2)`, `T`
being the sum of the nibble counts of the code words of all samples. -/
theorem encode4_returns_ceil_half (S : List Nat) (out : Buf) (C : Nat) (k : Int) (packed : Buf)
    (hS : IsBytes S) (henc : encode4 S out C = Run.ret (k, packed)) (hk : 0 ≤ k) :
    k = ⌈((totalNibbles 0 S : ℚ) / 2)⌉ := by
  obtain ⟨_, hkk, _⟩ := encode4_success S out C k packed hS henc hk
  rw [hkk]
  symm
  rw [Int.ceil_eq_iff]
  rcases Nat.even_or_odd' (totalNibbles 0 S) with ⟨q, hq | hq⟩
  · have e : (totalNibbles 0 S + 1) / 2 = q := by omega
    rw [e, hq]; push_cast
    constructor <;> linarith
  · have e : (totalNibbles 0 S + 1) / 2 = q + 1 := by omega
    rw [e, hq]; push_cast
    constructor <;> linarith


theorem encode4_returns_ceil_half_witness :
    IsBytes [250, 249, 0] ∧
    encode4 [250, 249, 0] zeroBuf 6 =
      Run.ret (5, writeNibbles zeroBuf 0 [15, 13, 10, 15, 7, 15, 14, 9, 15]) ∧
    (0 : Int) ≤ 5 ∧
    (5 : Int) = ⌈((totalNibbles 0 [250, 249, 0] : ℚ) / 2)⌉ :=
  ⟨by decide, rfl, by decide,
    encode4_returns_ceil_half [250, 249, 0] zeroBuf 6 5
      (writeNibbles zeroBuf 0 [15, 13, 10, 15, 7, 15, 14, 9, 15]) (by decide) rfl (by decide)⟩

/-- C7: a successful `encode4` returns a length that is at most `2 * N` and at
most the capacity. -/
theorem encode4_length_bound (S : List Nat) (out : Buf) (C : Nat) (k : Int) (packed : Buf)
    (hS : IsBytes S) (henc : encode4 S out C = Run.ret (k, packed)) (hk : 0 ≤ k) :
    k ≤ 2 * (S.length : Int) ∧ k ≤ (C : Int) := by
  obtain ⟨hfit, hkk, _⟩ := encode4_success S out C k packed hS henc hk
  have h4 := totalNibbles_le 0 S
  rw [hkk]
  rcases hfit with h | h
  · subst h
    simp [totalNibbles]
  · constructor <;> omega


theorem encode4_length_bound_witness :
    IsBytes [0, 1, 2, 4, 8] ∧
    encode4 [0, 1, 2, 4, 8] zeroBuf 3 = Run.ret (3, writeNibbles zeroBuf 0 [6, 5, 5, 4, 2]) ∧
    (0 : Int) ≤ 3 ∧
    ((3 : Int) ≤ 2 * ([0, 1, 2, 4, 8].length : Int) ∧ (3 : Int) ≤ ((3 : Nat) : Int)) :=
  ⟨by decide, rfl, by decide,
    encode4_length_bound [0, 1, 2, 4, 8] zeroBuf 3 3
      (writeNibbles zeroBuf 0 [6, 5, 5, 4, 2]) (by decide) rfl (by decide)⟩

/-- C8: after a successful `encode4` of `S` to `k` bytes, `decode4` with an
expected count `m ≤ S.length` returns exactly `m` and has written exactly the
first `m` samples of `S`; the loop ends with the read cursor at the end of the
`m`-th code word, and the outcome is the same for every buffer that agrees
with the packed one on the nibbles before that position. -/
theorem decode4_stops_at_count (S : List Nat) (out : Buf) (C : Nat) (k : Int) (packed : Buf)
    (hS : IsBytes S) (henc : encode4 S out C = Run.ret (k, packed)) (hk : 0 ≤ k)
    (m : Nat) (hm : m ≤ S.length) (dec0 : Buf) :
    decLoop packed k m m 0 0 0 dec0 =
      Run.ret (m, totalNibbles 0 (S.take m), writeBytes dec0 0 (S.take m)) ∧
    (∃ dec, decode4 packed k dec0 m = Run.ret (m, dec) ∧
      readBytes dec m = S.take m ∧ ∀ idx, m ≤ idx → dec idx = dec0 idx) ∧
    (∀ data : Buf, (∀ j, j < totalNibbles 0 (S.take m) → nibbleAt data j = nibbleAt packed j) →
      decode4 data k dec0 m = decode4 packed k dec0 m) := by
  have h := decLoop_take S out C k packed hS henc hk m hm packed (fun _ _ => rfl) dec0
  have hlen : (S.take m).length = m := List.length_take_of_le hm
  refine ⟨h, ⟨writeBytes dec0 0 (S.take m), decode4_of_decLoop _ _ _ _ _ _ _ h, ?_, ?_⟩, ?_⟩
  · have hr := readBytes_writeBytes dec0 (S.take m)
    rw [hlen] at hr
    exact hr
  · intro idx hidx
    exact writeBytes_frame dec0 0 _ idx (Or.inr (by omega))
  · intro data hdata
    rw [decode4_of_decLoop _ _ _ _ _ _ _ h,
      decode4_of_decLoop _ _ _ _ _ _ _ (decLoop_take S out C k packed hS henc hk m hm data hdata dec0)]


theorem decode4_stops_at_count_witness :
    IsBytes [7, 7, 30, 29] ∧
    encode4 [7, 7, 30, 29] zeroBuf 5 =
      Run.ret (4, writeNibbles zeroBuf 0 [13, 1, 6, 15, 13, 7, 1, 7]) ∧
    (0 : Int) ≤ 4 ∧ 2 ≤ [7, 7, 30, 29].length ∧
    (decLoop (writeNibbles zeroBuf 0 [13, 1, 6, 15, 13, 7, 1, 7]) 4 2 2 0 0 0 zeroBuf =
      Run.ret (2, totalNibbles 0 ([7, 7, 30, 29].take 2),
        writeBytes zeroBuf 0 ([7, 7, 30, 29].take 2)) ∧
    (∃ dec, decode4 (writeNibbles zeroBuf 0 [13, 1, 6, 15, 13, 7, 1, 7]) 4 zeroBuf 2
        = Run.ret (2, dec) ∧
      readBytes dec 2 = [7, 7, 30, 29].take 2 ∧ ∀ idx, 2 ≤ idx → dec idx = zeroBuf idx) ∧
    (∀ data : Buf, (∀ j, j < totalNibbles 0 ([7, 7, 30, 29].take 2) →
        nibbleAt data j = nibbleAt (writeNibbles zeroBuf 0 [13, 1, 6, 15, 13, 7, 1, 7]) j) →
      decode4 data 4 zeroBuf 2
        = decode4 (writeNibbles zeroBuf 0 [13, 1, 6, 15, 13, 7, 1, 7]) 4 zeroBuf 2)) :=
  ⟨by decide, rfl, by decide, by decide,
    decode4_stops_at_count [7, 7, 30, 29] zeroBuf 5 4
      (writeNibbles zeroBuf 0 [13, 1, 6, 15, 13, 7, 1, 7]) (by decide) rfl (by decide) 2
      (by decide) zeroBuf⟩

/-- C9: if a run of `decode4` is at the top of its loop with a sample still
requested and nibbles still available, and the code word at the cursor is
malformed (escape without sign nibble, stream ending inside a 2- or 4-nibble
code word, or reconstructed value outside `[0, 255]`), then `decode4` aborts
on an assertion. -/
theorem decode4_fails_fast (data : Buf) (bytes : Int) (count : Nat) (out0 : Buf)
    (i : Nat) (last : Int) (p : Nat) (o : Buf)
    (hr : Reach data bytes count out0 i last p o)
    (hc : (p : Int) < bytes * 2 ∧ i < count)
    (hm : Malformed data bytes last p) :
    decode4 data bytes out0 count = Run.abort := by
  have hb : decBody data bytes i last p o = Run.abort := by
    unfold decBody
    rcases hm with h | h | h | ⟨delta, p2, hd, hv⟩
    · rw [decDelta_malformed data bytes p (Or.inl h)]
    · rw [decDelta_malformed data bytes p (Or.inr (Or.inl h))]
    · rw [decDelta_malformed data bytes p (Or.inr (Or.inr h))]
    · rw [hd]
      dsimp only
      rw [if_neg (by omega)]
  obtain ⟨hi, hrun⟩ := decLoop_of_Reach data bytes count out0 i last p o hr
  have e : count - i = (count - i - 1) + 1 := by omega
  unfold decode4
  rw [hrun, e, decLoop, if_pos hc, hb]


theorem decode4_fails_fast_witness :
    Reach (store zeroBuf 0 0xF1) 2 2 zeroBuf 1 5 1 (store zeroBuf 0 5) ∧
    (((1 : Nat) : Int) < 2 * 2 ∧ 1 < 2) ∧
    Malformed (store zeroBuf 0 0xF1) 2 5 1 ∧
    decode4 (store zeroBuf 0 0xF1) 2 zeroBuf 2 = Run.abort :=
  ⟨Reach.step Reach.start ⟨by decide, by decide⟩ rfl, ⟨by decide, by decide⟩,
    Or.inl ⟨by decide, by decide, by decide⟩,
    decode4_fails_fast (store zeroBuf 0 0xF1) 2 2 zeroBuf 1 5 1 (store zeroBuf 0 5)
      (Reach.step Reach.start ⟨by decide, by decide⟩ rfl) ⟨by decide, by decide⟩
      (Or.inl ⟨by decide, by decide, by decide⟩)⟩

/-- An overflowing run stops at a first sample `i`: the samples before it fit,
the first `i + 1` samples do not, and the buffer holds exactly the code words
of the samples before `i`. -/
theorem encLoop_overflow_at (count : Nat) (S : List Nat) (last : Int) (p : Nat) (o buf : Buf)
    (hS : IsBytes S) (hl : 0 ≤ last ∧ last ≤ 255)
    (h : encLoop count S last p o = Run.ret (-1, buf)) :
    ∃ i, i < S.length ∧
      (S.take i = [] ∨ p + totalNibbles last (S.take i) < count * 2) ∧
      count * 2 ≤ p + totalNibbles last (S.take (i + 1)) ∧
      buf = writeNibbles o p (refStream last (S.take i)) := by
  induction S generalizing last p o with
  | nil =>
    simp only [encLoop, Run.ret.injEq, Prod.mk.injEq] at h
    omega
  | cons x rest ih =>
    have hx := IsBytes_head hS
    rw [encLoop_cons count x rest last p o (by omega) (by omega)] at h
    by_cases hc : p + (codeWord (last - (x : Int))).length ≥ count * 2
    · rw [if_pos hc] at h
      simp only [Run.ret.injEq, Prod.mk.injEq, true_and] at h
      refine ⟨0, by simp, Or.inl rfl, ?_, ?_⟩
      · simp only [Nat.zero_add, List.take_succ_cons, List.take_zero, totalNibbles]; omega
      · simp only [List.take_zero, refStream, writeNibbles]; exact h.symm
    · rw [if_neg hc] at h
      obtain ⟨i, hi, hfit, hover, hbuf⟩ := ih (x : Int) _ _ (IsBytes_tail hS) (by omega) h
      refine ⟨i + 1, by simp only [List.length_cons]; omega, Or.inr ?_, ?_, ?_⟩
      · simp only [List.take_succ_cons, totalNibbles]
        rcases hfit with h0 | h0
        · rw [h0]; simp only [totalNibbles]; omega
        · omega
      · simp only [List.take_succ_cons, totalNibbles]
        omega
      · simp only [List.take_succ_cons, refStream, writeNibbles_append]
        exact hbuf

/-- After sequential nibble writes that end at an odd position, the byte under
the cursor has its high half clear. -/
theorem writeNibbles_trailing (o : Buf) (p : Nat) (nibs : List Nat)
    (hinv : p % 2 = 1 → o (p / 2) < 16) (hodd : (p + nibs.length) % 2 = 1) :
    writeNibbles o p nibs ((p + nibs.length) / 2) < 16 := by
  induction nibs generalizing o p with
  | nil =>
    simp only [List.length_nil, Nat.add_zero] at hodd ⊢
    exact hinv hodd
  | cons a t ih =>
    simp only [List.length_cons] at hodd ⊢
    simp only [writeNibbles]
    have e : p + (t.length + 1) = p + 1 + t.length := by omega
    rw [e] at hodd ⊢
    apply ih (hex_out o p a) (p + 1) _ hodd
    intro hp
    have hp0 : p % 2 = 0 := by omega
    have e2 : (p + 1) / 2 = p / 2 := by omega
    rw [e2, hex_out_even o p a hp0]; omega

theorem hex_out_pointwise (o1 o2 : Buf) (p h idx : Nat) (e : o1 idx = o2 idx) :
    hex_out o1 p h idx = hex_out o2 p h idx := by
  by_cases hi : idx = p / 2
  · subst hi
    unfold hex_out store
    split_ifs <;> simp [e]
  · rw [hex_out_frame o1 p h idx hi, hex_out_frame o2 p h idx hi, e]

/-- A byte whose low nibble position is written by the sequence does not
depend on the initial content of the buffer. -/
theorem writeNibbles_indep (o1 o2 : Buf) (p : Nat) (nibs : List Nat) (idx : Nat)
    (h : o1 idx = o2 idx ∨ (p ≤ 2 * idx ∧ 2 * idx < p + nibs.length)) :
    writeNibbles o1 p nibs idx = writeNibbles o2 p nibs idx := by
  induction nibs generalizing o1 o2 p with
  | nil =>
    simp only [List.length_nil, Nat.add_zero] at h
    simp only [writeNibbles]
    rcases h with h | h
    · exact h
    · omega
  | cons a t ih =>
    simp only [List.length_cons] at h
    simp only [writeNibbles]
    apply ih
    rcases h with h | h
    · exact Or.inl (hex_out_pointwise o1 o2 p a idx h)
    · by_cases hp : p = 2 * idx
      · left
        have hp0 : p % 2 = 0 := by omega
        have e : idx = p / 2 := by omega
        rw [e, hex_out_even o1 p a hp0, hex_out_even o2 p a hp0]
      · right; omega

/-! ## Further facts about the decoder -/

theorem lastAfter_append_singleton (prev : Int) (pre : List Nat) (s : Nat) :
    lastAfter prev (pre ++ [s]) = (s : Int) := by
  induction pre generalizing prev with
  | nil => rfl
  | cons a t ih => rw [List.cons_append]; simp only [lastAfter]; exact ih (a : Int)

theorem lastAfter_range (prev : Int) (S : List Nat) (hp : 0 ≤ prev ∧ prev ≤ 255)
    (hS : IsBytes S) : 0 ≤ lastAfter prev S ∧ lastAfter prev S ≤ 255 := by
  induction S generalizing prev with
  | nil => exact hp
  | cons a t ih =>
    have ha := IsBytes_head hS
    simp only [lastAfter]
    exact ih (a : Int) (by omega) (IsBytes_tail hS)

/-- Decoding the reference stream of `S` while more than `S.length` samples are
still requested: the loop arrives, after `S.length` iterations, at the state
with the samples written and the cursor behind the stream. -/
theorem decLoop_steps (data : Buf) (bytes : Int) (count : Nat) (S : List Nat) (last : Int)
    (i p : Nat) (o : Buf) (fuel : Nat)
    (hS : IsBytes S) (hl : 0 ≤ last ∧ last ≤ 255)
    (hn : NibblesAt data p (refStream last S))
    (hb : ((p + totalNibbles last S : Nat) : Int) ≤ bytes * 2)
    (hc : i + S.length ≤ count) :
    decLoop data bytes count (fuel + S.length) i last p o =
      decLoop data bytes count fuel (i + S.length) (lastAfter last S)
        (p + totalNibbles last S) (writeBytes o i S) := by
  induction S generalizing last i p o with
  | nil => rfl
  | cons s rest ih =>
    have hs := IsBytes_head hS
    simp only [List.length_cons] at hc
    simp only [refStream, NibblesAt_append] at hn
    simp only [totalNibbles] at hb
    have hpos := codeWord_length_pos (last - (s : Int))
    have e : fuel + (s :: rest).length = (fuel + rest.length) + 1 := by
      simp only [List.length_cons]; omega
    rw [e, decLoop, if_pos ⟨by omega, by omega⟩]
    rw [decBody_codeWord data bytes i last p o s hs hl hn.1 (by omega)]
    dsimp only
    rw [ih (s : Int) (i + 1) _ _ (IsBytes_tail hS) (by omega) hn.2 (by push_cast at hb ⊢; omega)
      (by omega)]
    simp only [totalNibbles, writeBytes, lastAfter, List.length_cons, Nat.add_assoc]
    have e2 : 1 + rest.length = rest.length + 1 := by omega
    rw [e2]

theorem decBody_ret (data : Buf) (bytes : Int) (i : Nat) (last : Int) (p : Nat) (o : Buf)
    (i2 : Nat) (last2 : Int) (p2 : Nat) (o2 : Buf)
    (h : decBody data bytes i last p o = Run.ret (i2, last2, p2, o2)) :
    i2 = i + 1 ∧ ∃ v, o2 = store o i v := by
  unfold decBody at h
  split at h
  · cases h
  · cases h
  · dsimp only at h
    split at h
    · simp only [Run.ret.injEq, Prod.mk.injEq] at h
      exact ⟨h.1.symm, _, h.2.2.2.symm⟩
    · cases h

/-- The loop returns a count between its starting index and `count`, and
stores only at indices below `count`. -/
theorem decLoop_bounds (data : Buf) (bytes : Int) (count fuel i : Nat) (last : Int) (p : Nat)
    (o : Buf) (n q : Nat) (dec : Buf) (hi : i ≤ count)
    (h : decLoop data bytes count fuel i last p o = Run.ret (n, q, dec)) :
    i ≤ n ∧ n ≤ count ∧ ∀ idx, count ≤ idx → dec idx = o idx := by
  induction fuel generalizing i last p o with
  | zero =>
    rw [decLoop] at h
    split_ifs at h
    simp only [Run.ret.injEq, Prod.mk.injEq] at h
    obtain ⟨h1, _, h3⟩ := h
    subst h1 h3
    exact ⟨Nat.le_refl _, hi, fun _ _ => rfl⟩
  | succ f ih =>
    rw [decLoop] at h
    split_ifs at h with hc
    · split at h
      · cases h
      · cases h
      · rename_i i2 last2 p2 o2 hb
        obtain ⟨hi2, v, ho2⟩ := decBody_ret data bytes i last p o i2 last2 p2 o2 hb
        obtain ⟨h1, h2, h3⟩ := ih i2 last2 p2 o2 (by omega) h
        refine ⟨by omega, h2, ?_⟩
        intro idx hidx
        rw [h3 idx hidx, ho2]
        unfold store
        rw [if_neg (by omega)]
    · simp only [Run.ret.injEq, Prod.mk.injEq] at h
      obtain ⟨h1, _, h3⟩ := h
      subst h1 h3
      exact ⟨Nat.le_refl _, hi, fun _ _ => rfl⟩

/-- The code word read at `p` is the same for two buffers with the same
nibbles below `2 * bytes`. -/
theorem decDelta_congr (d1 d2 : Buf) (bytes : Int) (p : Nat)
    (h : ∀ j : Nat, (j : Int) < bytes * 2 → hex_in d1 j = hex_in d2 j)
    (hp : (p : Int) < bytes * 2) : decDelta d1 bytes p = decDelta d2 bytes p := by
  unfold decDelta
  dsimp only
  rw [h p hp]
  by_cases c0 : hex_in d2 p ≤ 0xC
  · simp only [c0, if_true]
  · simp only [c0, if_false]
    by_cases c1 : ((p + 1 : Nat) : Int) < bytes * 2
    · simp only [c1, not_true, if_false]
      rw [h (p + 1) c1]
      by_cases c5 : ((p + 2 : Nat) : Int) < bytes * 2 - 1
      · rw [h (p + 2) (by push_cast at c5 ⊢; omega), h (p + 3) (by push_cast at c5 ⊢; omega)]
      · simp only [c5, not_false_eq_true, if_true]
    · simp only [c1, not_false_eq_true, if_true]

theorem decBody_congr (d1 d2 : Buf) (bytes : Int) (i : Nat) (last : Int) (p : Nat) (o : Buf)
    (h : ∀ j : Nat, (j : Int) < bytes * 2 → hex_in d1 j = hex_in d2 j)
    (hp : (p : Int) < bytes * 2) : decBody d1 bytes i last p o = decBody d2 bytes i last p o := by
  unfold decBody
  rw [decDelta_congr d1 d2 bytes p h hp]

/-- The loop gives the same outcome on two buffers with the same nibbles
below `2 * bytes`. -/
theorem decLoop_congr (d1 d2 : Buf) (bytes : Int) (count fuel i : Nat) (last : Int) (p : Nat)
    (o : Buf) (h : ∀ j : Nat, (j : Int) < bytes * 2 → hex_in d1 j = hex_in d2 j) :
    decLoop d1 bytes count fuel i last p o = decLoop d2 bytes count fuel i last p o := by
  induction fuel generalizing i last p o with
  | zero => rfl
  | succ f ih =>
    rw [decLoop, decLoop]
    by_cases hc : (p : Int) < bytes * 2 ∧ i < count
    · rw [if_pos hc, if_pos hc, decBody_congr d1 d2 bytes i last p o h hc.1]
      cases decBody d2 bytes i last p o with
      | abort => rfl
      | stuck => rfl
      | ret a =>
        obtain ⟨i2, last2, p2, o2⟩ := a
        exact ih i2 last2 p2 o2
    · rw [if_neg hc, if_neg hc]

theorem hex_in_of_bytes_eq (d1 d2 : Buf) (bytes : Int)
    (h : ∀ idx : Nat, (idx : Int) < bytes → d1 idx = d2 idx) :
    ∀ j : Nat, (j : Int) < bytes * 2 → hex_in d1 j = hex_in d2 j := by
  intro j hj
  have e : d1 (j / 2) = d2 (j / 2) := h (j / 2) (by omega)
  unfold hex_in
  rw [e]

theorem writeBytes_append (o : Buf) (i : Nat) (A B : List Nat) :
    writeBytes o i (A ++ B) = writeBytes (writeBytes o i A) (i + A.length) B := by
  induction A generalizing o i with
  | nil => simp [writeBytes]
  | cons a t ih =>
    rw [List.cons_append]
    simp only [writeBytes, List.length_cons]
    rw [ih]
    have : i + 1 + t.length = i + (t.length + 1) := by omega
    rw [this]

theorem totalNibbles_append_singleton (prev : Int) (pre : List Nat) (x : Nat) :
    totalNibbles prev (pre ++ [x]) =
      totalNibbles prev pre + (codeWord (lastAfter prev pre - (x : Int))).length := by
  induction pre generalizing prev with
  | nil => simp [totalNibbles, lastAfter]
  | cons a t ih =>
    rw [List.cons_append]
    simp only [totalNibbles, lastAfter, ih]
    omega

/-- When the samples `pre` fit and the next sample `x` does not, the loop
returns `-1` with exactly the code words of `pre` written. -/
theorem encLoop_overflow_split (count : Nat) (pre : List Nat) (x : Nat) (post : List Nat)
    (last : Int) (p : Nat) (o : Buf)
    (hS : IsBytes (pre ++ x :: post)) (hl : 0 ≤ last ∧ last ≤ 255)
    (hfit : pre = [] ∨ p + totalNibbles last pre < count * 2)
    (hover : count * 2 ≤ p + totalNibbles last (pre ++ [x])) :
    encLoop count (pre ++ x :: post) last p o =
      Run.ret (-1, writeNibbles o p (refStream last pre)) := by
  induction pre generalizing last p o with
  | nil =>
    have hx : x < 256 := hS x (by simp)
    simp only [List.nil_append, totalNibbles, Nat.add_zero] at hover ⊢
    rw [encLoop_cons count x post last p o (by omega) (by omega), if_pos (by omega)]
    simp only [refStream, writeNibbles]
  | cons a t ih =>
    have ha : a < 256 := hS a (by simp)
    have hS2 : IsBytes (t ++ x :: post) := fun y hy => hS y (by simp at hy ⊢; tauto)
    have hfit2 : p + totalNibbles last (a :: t) < count * 2 := by
      rcases hfit with h | h
      · cases h
      · exact h
    simp only [totalNibbles] at hfit2
    rw [List.cons_append] at hover ⊢
    simp only [totalNibbles] at hover
    rw [encLoop_cons count a (t ++ x :: post) last p o (by omega) (by omega), if_neg (by omega)]
    rw [ih (a : Int) _ _ hS2 (by omega) (Or.inr (by omega)) (by omega)]
    simp only [refStream, writeNibbles_append]

theorem take_succ_eq_append (S : List Nat) (i : Nat) (hi : i < S.length) :
    ∃ x post, S = S.take i ++ x :: post ∧ S.take (i + 1) = S.take i ++ [x] := by
  induction S generalizing i with
  | nil => simp at hi
  | cons a t ih =>
    cases i with
    | zero => exact ⟨a, t, by simp, by simp⟩
    | succ j =>
      simp only [List.length_cons] at hi
      obtain ⟨x, post, h1, h2⟩ := ih j (by omega)
      refine ⟨x, post, ?_, ?_⟩
      · simp only [List.take_succ_cons, List.cons_append]
        rw [← h1]
      · simp only [List.take_succ_cons, List.cons_append]
        rw [h2]

set_option maxRecDepth 100000 in
theorem escape_word_fits_fin : ∀ n < 256,
    (0xF ||| (0xD <<< 4) ||| (n <<< 8)) < 65536 ∧ (0xF ||| (0xE <<< 4) ||| (n <<< 8)) < 65536 := by
  decide

/-! ## The capacity test in 32-bit arithmetic -/

theorem toInt32_of_range (n : Int) (h1 : -2147483648 ≤ n) (h2 : n ≤ 2147483647) :
    toInt32 n = n := by
  unfold toInt32; omega

theorem encLoopI32_cons (count : Nat) (x : Nat) (rest : List Nat) (last : Int) (p : Nat)
    (o : Buf) (h1 : -255 ≤ last - (x : Int)) (h2 : last - (x : Int) ≤ 255) :
    encLoopI32 count (x :: rest) last p o =
      if toInt32 ((p : Int) + (((codeWord (last - (x : Int))).length : Nat) : Int))
          ≥ toInt32 ((count : Int) * 2) then Run.ret (-1, o)
      else encLoopI32 count rest (x : Int) (p + (codeWord (last - (x : Int))).length)
        (writeNibbles o p (codeWord (last - (x : Int)))) := by
  rw [encLoopI32]
  generalize last - (x : Int) = d at h1 h2
  by_cases hs : -6 ≤ d ∧ d ≤ 6
  · rw [encWord_small d hs.1 hs.2, codeWord_small d hs.1 hs.2]
    simp only [writeNibbles, List.length_cons, List.length_nil]
    rfl
  · by_cases hm : d.natAbs ≤ 19
    · rw [encWord_mid d (by omega) hm, codeWord_mid d (by omega) hm]
      simp only [writeNibbles, List.length_cons, List.length_nil]
      have e1 : hex_out o p (((if d < 0 then 0xD else 0xE) + 16 * (d.natAbs - 6)) >>> 0)
          = hex_out o p (if d < 0 then 0xD else 0xE) := by
        apply hex_out_congr; rw [Nat.shiftRight_zero]; split_ifs <;> omega
      have e2 : ∀ b : Buf, hex_out b (p + 1) (((if d < 0 then 0xD else 0xE) + 16 * (d.natAbs - 6)) >>> 4)
          = hex_out b (p + 1) (d.natAbs - 6) := by
        intro b; apply hex_out_congr; rw [shiftRight_four]; split_ifs <;> omega
      rw [e1, e2]
      rfl
    · rw [encWord_escape d (by omega) (by omega), codeWord_escape d (by omega)]
      simp only [writeNibbles, List.length_cons, List.length_nil]
      have e1 : hex_out o p ((15 + 16 * (if d < 0 then 0xD else 0xE) + 256 * d.natAbs) >>> 0)
          = hex_out o p 0xF := by
        apply hex_out_congr; rw [Nat.shiftRight_zero]; split_ifs <;> omega
      have e2 : ∀ b : Buf,
          hex_out b (p + 1) ((15 + 16 * (if d < 0 then 0xD else 0xE) + 256 * d.natAbs) >>> 4)
          = hex_out b (p + 1) (if d < 0 then 0xD else 0xE) := by
        intro b; apply hex_out_congr; rw [shiftRight_four]; split_ifs <;> omega
      have e3 : ∀ b : Buf,
          hex_out b (p + 2) ((15 + 16 * (if d < 0 then 0xD else 0xE) + 256 * d.natAbs) >>> 8)
          = hex_out b (p + 2) (d.natAbs % 16) := by
        intro b; apply hex_out_congr; rw [shiftRight_eight]; split_ifs <;> omega
      have e4 : ∀ b : Buf,
          hex_out b (p + 3) ((15 + 16 * (if d < 0 then 0xD else 0xE) + 256 * d.natAbs) >>> 12)
          = hex_out b (p + 3) (d.natAbs / 16) := by
        intro b; apply hex_out_congr; rw [shiftRight_twelve]; split_ifs <;> omega
      rw [e1, e2, e3, e4]
      rfl

/-- A run that returns a length has emitted the code word of every sample. -/
theorem encLoopI32_shape (count : Nat) (S : List Nat) (last : Int) (p : Nat) (o : Buf)
    (k : Int) (b : Buf) (hS : IsBytes S) (hl : 0 ≤ last ∧ last ≤ 255)
    (h : encLoopI32 count S last p o = Run.ret (k, b)) (hk : 0 ≤ k) :
    k = (((p + totalNibbles last S + 1) / 2 : Nat) : Int) ∧
      b = writeNibbles o p (refStream last S) := by
  induction S generalizing last p o with
  | nil =>
    simp only [encLoopI32, Run.ret.injEq, Prod.mk.injEq] at h
    simp only [totalNibbles, refStream, writeNibbles, Nat.add_zero]
    exact ⟨h.1.symm, h.2.symm⟩
  | cons x rest ih =>
    have hx := IsBytes_head hS
    rw [encLoopI32_cons count x rest last p o (by omega) (by omega)] at h
    split_ifs at h with hc
    · simp only [Run.ret.injEq, Prod.mk.injEq] at h
      omega
    · obtain ⟨h1, h2⟩ := ih (x : Int) _ _ (IsBytes_tail hS) (by omega) h
      simp only [totalNibbles, refStream, writeNibbles_append]
      refine ⟨?_, h2⟩
      rw [h1]
      have e : p + (codeWord (last - (x : Int))).length + totalNibbles (x : Int) rest + 1
          = p + ((codeWord (last - (x : Int))).length + totalNibbles (x : Int) rest) + 1 := by
        omega
      rw [e]

/-- The returned value does not depend on the content of the output buffer. -/
theorem encLoopI32_code (count : Nat) (S : List Nat) (last : Int) (p : Nat) (o1 o2 : Buf)
    (k : Int) (b : Buf) (hS : IsBytes S) (hl : 0 ≤ last ∧ last ≤ 255)
    (h : encLoopI32 count S last p o1 = Run.ret (k, b)) :
    ∃ b2, encLoopI32 count S last p o2 = Run.ret (k, b2) := by
  induction S generalizing last p o1 o2 with
  | nil =>
    simp only [encLoopI32, Run.ret.injEq, Prod.mk.injEq] at h
    exact ⟨o2, by simp only [encLoopI32]; rw [h.1]⟩
  | cons x rest ih =>
    have hx := IsBytes_head hS
    rw [encLoopI32_cons count x rest last p o1 (by omega) (by omega)] at h
    rw [encLoopI32_cons count x rest last p o2 (by omega) (by omega)]
    split_ifs at h ⊢ with hc
    · simp only [Run.ret.injEq, Prod.mk.injEq] at h
      exact ⟨o2, by rw [h.1]⟩
    · exact ih (x : Int) _ _ _ (IsBytes_tail hS) (by omega) h

/-- When `count * 2` is an `int` and the whole stream stays below it, the run
returns the byte length and has written the reference stream. -/
theorem encLoopI32_ok (count : Nat) (S : List Nat) (last : Int) (p : Nat) (o : Buf)
    (hS : IsBytes S) (hl : 0 ≤ last ∧ last ≤ 255) (hc : count * 2 ≤ 2147483647)
    (hfit : S = [] ∨ p + totalNibbles last S < count * 2) :
    encLoopI32 count S last p o =
      Run.ret ((((p + totalNibbles last S + 1) / 2 : Nat) : Int),
        writeNibbles o p (refStream last S)) := by
  induction S generalizing last p o with
  | nil => simp [encLoopI32, totalNibbles, refStream, writeNibbles]
  | cons s rest ih =>
    have hs := IsBytes_head hS
    have hfit2 : p + totalNibbles last (s :: rest) < count * 2 := by
      rcases hfit with h | h
      · cases h
      · exact h
    simp only [totalNibbles] at hfit2
    rw [encLoopI32_cons count s rest last p o (by omega) (by omega)]
    rw [toInt32_of_range _ (by omega) (by omega), toInt32_of_range _ (by omega) (by omega)]
    rw [if_neg (by omega)]
    rw [ih (s : Int) _ _ (IsBytes_tail hS) (by omega) (Or.inr (by omega))]
    simp only [totalNibbles, refStream, writeNibbles_append]
    have e : p + (codeWord (last - (s : Int))).length + totalNibbles (s : Int) rest + 1
        = p + ((codeWord (last - (s : Int))).length + totalNibbles (s : Int) rest) + 1 := by omega
    rw [e]

/-- When `count * 2 + 4` does not exceed `2^31`, neither side of the capacity
test leaves the range of `int`, and the loop is the one computed with
unbounded integers. -/
theorem encLoopI32_eq_encLoop (count : Nat) (S : List Nat) (last : Int) (p : Nat) (o : Buf)
    (hS : IsBytes S) (hl : 0 ≤ last ∧ last ≤ 255) (hc : count * 2 + 4 ≤ 2147483648)
    (hp : p = 0 ∨ p < count * 2) :
    encLoopI32 count S last p o = encLoop count S last p o := by
  induction S generalizing last p o with
  | nil => simp [encLoopI32, encLoop]
  | cons s rest ih =>
    have hs := IsBytes_head hS
    have hlen := codeWord_length_le (last - (s : Int))
    rw [encLoopI32_cons count s rest last p o (by omega) (by omega),
      encLoop_cons count s rest last p o (by omega) (by omega)]
    rw [toInt32_of_range _ (by omega) (by omega), toInt32_of_range _ (by omega) (by omega)]
    by_cases h : p + (codeWord (last - (s : Int))).length ≥ count * 2
    · rw [if_pos (by omega), if_pos h]
    · rw [if_neg (by omega), if_neg h]
      exact ih (s : Int) _ _ (IsBytes_tail hS) (by omega) (Or.inr (by omega))

/-- For capacities up to `2^30 - 2` the function with the 32-bit capacity test
is the function computed with unbounded integers. -/
theorem encode4I32_eq_encode4 (S : List Nat) (out : Buf) (C : Nat) (hS : IsBytes S)
    (hc : C * 2 + 4 ≤ 2147483648) : encode4I32 S out C = encode4 S out C :=
  encLoopI32_eq_encLoop C S 0 0 out hS (by omega) hc (Or.inl rfl)

/-- For an `int` capacity of `2^30` or more, `count * 2` is negative in `int`
and a non-empty input is refused at its first sample. -/
theorem encode4I32_large (x : Nat) (rest : List Nat) (out : Buf) (C : Nat)
    (hx : x < 256) (h1 : 1073741824 ≤ C) (h2 : C ≤ 2147483647) :
    encode4I32 (x :: rest) out C = Run.ret (-1, out) := by
  unfold encode4I32
  have hlen := codeWord_length_le (0 - (x : Int))
  rw [encLoopI32_cons C x rest 0 0 out (by omega) (by omega)]
  rw [toInt32_of_range _ (by omega) (by omega)]
  rw [if_pos]
  unfold toInt32
  omega

/-! ## Properties of the codec, continued -/

/-- C11: when `encode4` reports overflow, it does so at a sample `i` such that
encoding the first `i` samples alone succeeds and encoding the first `i + 1`
samples overflows, and the output buffer is exactly the buffer left by
encoding the first `i` samples into the same initial buffer (the code words of
`s_0 .. s_{i-1}` and nothing else). -/
theorem encode4_overflow_keeps_buffer (S : List Nat) (out : Buf) (C : Nat) (buf : Buf)
    (hS : IsBytes S) (henc : encode4 S out C = Run.ret (-1, buf)) :
    ∃ i, i < S.length ∧
      encode4 (S.take i) out C =
        Run.ret ((((totalNibbles 0 (S.take i) + 1) / 2 : Nat) : Int), buf) ∧
      encode4 (S.take (i + 1)) out C = Run.ret (-1, buf) ∧
      buf = writeNibbles out 0 (refStream 0 (S.take i)) := by
  obtain ⟨i, hi, hfit, hover, hbuf⟩ := encLoop_overflow_at C S 0 0 out buf hS (by omega) henc
  obtain ⟨x, post, h1, h2⟩ := take_succ_eq_append S i hi
  refine ⟨i, hi, ?_, ?_, hbuf⟩
  · have h := encLoop_ok C (S.take i) 0 0 out (IsBytes_take hS i) (by omega) hfit
    rw [Nat.zero_add] at h
    unfold encode4
    rw [h, hbuf]
  · unfold encode4
    have hS2 : IsBytes (S.take i ++ x :: []) := by
      rw [← h2]; exact IsBytes_take hS (i + 1)
    rw [h2] at hover ⊢
    rw [encLoop_overflow_split C (S.take i) x [] 0 0 out hS2 (by omega) hfit hover, hbuf]

theorem encode4_overflow_keeps_buffer_witness :
    IsBytes [3, 100, 7] ∧
    encode4 [3, 100, 7] zeroBuf 2 = Run.ret (-1, writeNibbles zeroBuf 0 [3]) ∧
    ∃ i, i < [3, 100, 7].length ∧
      encode4 ([3, 100, 7].take i) zeroBuf 2 =
        Run.ret ((((totalNibbles 0 ([3, 100, 7].take i) + 1) / 2 : Nat) : Int),
          writeNibbles zeroBuf 0 [3]) ∧
      encode4 ([3, 100, 7].take (i + 1)) zeroBuf 2 = Run.ret (-1, writeNibbles zeroBuf 0 [3]) ∧
      writeNibbles zeroBuf 0 [3] = writeNibbles zeroBuf 0 (refStream 0 ([3, 100, 7].take i)) :=
  ⟨by decide, rfl,
    encode4_overflow_keeps_buffer [3, 100, 7] zeroBuf 2 (writeNibbles zeroBuf 0 [3])
      (by decide) rfl⟩

/-- C12: for a delta `d` in `[-255, 255]` the encoder chooses a width `bits`
with `bits / 4 = 1` iff `|d| ≤ 6`, `= 2` iff `7 ≤ |d| ≤ 19` and `= 4` iff
`20 ≤ |d| ≤ 255`, and a loop iteration that does not overflow writes exactly
that many nibbles and advances the cursor by that many positions. -/
theorem encWord_nibble_count (d : Int) (h1 : -255 ≤ d) (h2 : d ≤ 255) :
    ∃ out bits, encWord d = Run.ret (out, bits) ∧
      (bits / 4 = 1 ↔ d.natAbs ≤ 6) ∧
      (bits / 4 = 2 ↔ 7 ≤ d.natAbs ∧ d.natAbs ≤ 19) ∧
      (bits / 4 = 4 ↔ 20 ≤ d.natAbs ∧ d.natAbs ≤ 255) ∧
      (codeWord d).length = bits / 4 ∧
      ∀ (count x : Nat) (rest : List Nat) (last : Int) (p : Nat) (o : Buf),
        last - (x : Int) = d → p + bits / 4 < count * 2 →
        encLoop count (x :: rest) last p o =
          encLoop count rest (x : Int) (p + bits / 4) (writeNibbles o p (codeWord d)) := by
  have step : ∀ n : Nat, (codeWord d).length = n →
      ∀ (count x : Nat) (rest : List Nat) (last : Int) (p : Nat) (o : Buf),
        last - (x : Int) = d → p + n < count * 2 →
        encLoop count (x :: rest) last p o =
          encLoop count rest (x : Int) (p + n) (writeNibbles o p (codeWord d)) := by
    intro n hn count x rest last p o hd hp
    subst hd
    rw [encLoop_cons count x rest last p o h1 h2, hn, if_neg (by omega)]
  by_cases hs : -6 ≤ d ∧ d ≤ 6
  · have hl : (codeWord d).length = 1 := by rw [codeWord_small d hs.1 hs.2]; rfl
    refine ⟨_, _, encWord_small d hs.1 hs.2, ?_, ?_, ?_, hl, step 1 hl⟩ <;>
      constructor <;> intro <;> omega
  · by_cases hm : d.natAbs ≤ 19
    · have hl : (codeWord d).length = 2 := by rw [codeWord_mid d (by omega) hm]; rfl
      refine ⟨_, _, encWord_mid d (by omega) hm, ?_, ?_, ?_, hl, step 2 hl⟩ <;>
        constructor <;> intro <;> omega
    · have hl : (codeWord d).length = 4 := by rw [codeWord_escape d (by omega)]; rfl
      refine ⟨_, _, encWord_escape d (by omega) (by omega), ?_, ?_, ?_, hl, step 4 hl⟩ <;>
        constructor <;> intro <;> omega

theorem encWord_nibble_count_witness :
    (-255 : Int) ≤ -20 ∧ (-20 : Int) ≤ 255 ∧
    ∃ out bits, encWord (-20) = Run.ret (out, bits) ∧
      (bits / 4 = 1 ↔ (-20 : Int).natAbs ≤ 6) ∧
      (bits / 4 = 2 ↔ 7 ≤ (-20 : Int).natAbs ∧ (-20 : Int).natAbs ≤ 19) ∧
      (bits / 4 = 4 ↔ 20 ≤ (-20 : Int).natAbs ∧ (-20 : Int).natAbs ≤ 255) ∧
      (codeWord (-20)).length = bits / 4 ∧
      ∀ (count x : Nat) (rest : List Nat) (last : Int) (p : Nat) (o : Buf),
        last - (x : Int) = -20 → p + bits / 4 < count * 2 →
        encLoop count (x :: rest) last p o =
          encLoop count rest (x : Int) (p + bits / 4) (writeNibbles o p (codeWord (-20))) :=
  ⟨by decide, by decide, encWord_nibble_count (-20) (by decide) (by decide)⟩

/-- C13: when `encode4` succeeds with an odd total nibble count, the high 4
bits of the last returned byte (index `k - 1`, nibble position `T`) are 0,
whatever the output buffer held before. -/
theorem encode4_trailing_half_zero (S : List Nat) (out : Buf) (C : Nat) (k : Int) (packed : Buf)
    (hS : IsBytes S) (henc : encode4 S out C = Run.ret (k, packed)) (hk : 0 ≤ k)
    (hodd : totalNibbles 0 S % 2 = 1) :
    packed (k.toNat - 1) / 16 % 16 = 0 ∧ nibbleAt packed (totalNibbles 0 S) = 0 := by
  obtain ⟨_, hkk, hp⟩ := encode4_success S out C k packed hS henc hk
  have ht := writeNibbles_trailing out 0 (refStream 0 S) (by omega)
    (by rw [refStream_length, Nat.zero_add]; exact hodd)
  rw [refStream_length, Nat.zero_add, ← hp] at ht
  have e : k.toNat - 1 = totalNibbles 0 S / 2 := by rw [hkk]; omega
  refine ⟨by rw [e]; omega, ?_⟩
  unfold nibbleAt
  rw [if_neg (by omega)]
  omega

theorem encode4_trailing_half_zero_witness :
    IsBytes [10, 12, 40] ∧
    encode4 [10, 12, 40] (fun _ => 0xFF) 4 =
      Run.ret (4, writeNibbles (fun _ => 0xFF) 0 [13, 4, 4, 15, 13, 12, 1]) ∧
    (0 : Int) ≤ 4 ∧ totalNibbles 0 [10, 12, 40] % 2 = 1 ∧
    (writeNibbles (fun _ => 0xFF) 0 [13, 4, 4, 15, 13, 12, 1] ((4 : Int).toNat - 1) / 16 % 16 = 0 ∧
      nibbleAt (writeNibbles (fun _ => 0xFF) 0 [13, 4, 4, 15, 13, 12, 1])
        (totalNibbles 0 [10, 12, 40]) = 0) :=
  ⟨by decide, rfl, by decide, by decide,
    encode4_trailing_half_zero [10, 12, 40] (fun _ => 0xFF) 4 4
      (writeNibbles (fun _ => 0xFF) 0 [13, 4, 4, 15, 13, 12, 1]) (by decide) rfl (by decide)
      (by decide)⟩

/-- C14: for a successfully encoded `S` with an odd nibble count, replacing
the high 4 bits of the last packed byte by any nibble `v` leaves the outcome of
`decode4` (same packed length, expected count `S.length`) unchanged: it
returns `S.length` with `S` written. -/
theorem decode4_ignores_trailing_half (S : List Nat) (out : Buf) (C : Nat) (k : Int)
    (packed : Buf) (hS : IsBytes S) (henc : encode4 S out C = Run.ret (k, packed)) (hk : 0 ≤ k)
    (hodd : totalNibbles 0 S % 2 = 1) (v : Nat) (_hv : v < 16) (dec0 : Buf) :
    decode4 (store packed (k.toNat - 1) (setHighNibble (packed (k.toNat - 1)) v)) k dec0 S.length
      = decode4 packed k dec0 S.length ∧
    decode4 packed k dec0 S.length = Run.ret (S.length, writeBytes dec0 0 S) := by
  obtain ⟨_, hkk, _⟩ := encode4_success S out C k packed hS henc hk
  have e : k.toNat - 1 = totalNibbles 0 S / 2 := by rw [hkk]; omega
  have h1 := decLoop_take S out C k packed hS henc hk S.length (Nat.le_refl _) packed
    (fun _ _ => rfl) dec0
  have h2 := decLoop_take S out C k packed hS henc hk S.length (Nat.le_refl _)
    (store packed (k.toNat - 1) (setHighNibble (packed (k.toNat - 1)) v))
    (by
      rw [List.take_length]
      intro j hj
      unfold nibbleAt store
      by_cases hb : j / 2 = k.toNat - 1
      · have hj2 : j % 2 = 0 := by omega
        rw [if_pos hj2, if_pos hj2, if_pos hb, hb]
        unfold setHighNibble
        omega
      · simp only [hb, if_false]) dec0
  rw [List.take_length] at h1 h2
  rw [decode4_of_decLoop _ _ _ _ _ _ _ h1, decode4_of_decLoop _ _ _ _ _ _ _ h2]
  exact ⟨rfl, rfl⟩

theorem decode4_ignores_trailing_half_witness :
    IsBytes [0, 1, 2, 4, 8] ∧
    encode4 [0, 1, 2, 4, 8] zeroBuf 3 = Run.ret (3, writeNibbles zeroBuf 0 [6, 5, 5, 4, 2]) ∧
    (0 : Int) ≤ 3 ∧ totalNibbles 0 [0, 1, 2, 4, 8] % 2 = 1 ∧ 9 < 16 ∧
    (decode4 (store (writeNibbles zeroBuf 0 [6, 5, 5, 4, 2]) ((3 : Int).toNat - 1)
        (setHighNibble (writeNibbles zeroBuf 0 [6, 5, 5, 4, 2] ((3 : Int).toNat - 1)) 9)) 3
        zeroBuf [0, 1, 2, 4, 8].length
      = decode4 (writeNibbles zeroBuf 0 [6, 5, 5, 4, 2]) 3 zeroBuf [0, 1, 2, 4, 8].length ∧
    decode4 (writeNibbles zeroBuf 0 [6, 5, 5, 4, 2]) 3 zeroBuf [0, 1, 2, 4, 8].length
      = Run.ret ([0, 1, 2, 4, 8].length, writeBytes zeroBuf 0 [0, 1, 2, 4, 8])) :=
  ⟨by decide, rfl, by decide, by decide, by decide,
    decode4_ignores_trailing_half [0, 1, 2, 4, 8] zeroBuf 3 3
      (writeNibbles zeroBuf 0 [6, 5, 5, 4, 2]) (by decide) rfl (by decide) (by decide) 9
      (by decide) zeroBuf⟩

/-- C15 (counterexample to the claim as stated): with previous value 0, sign
nibble `0xD` and second nibble `14`, the value `previous - delta = 20` is a
byte, and `decode4` still aborts (the assertion of line 126 fails, since
`|delta| = 20`). -/
theorem decode4_rejects_magnitude_14 :
    nibbleAt (store zeroBuf 0 0xED) 0 = 0xD ∧ nibbleAt (store zeroBuf 0 0xED) 1 = 14 ∧
    (0 : Int) ≤ 0 - (-(14 + 6)) ∧ (0 : Int) - (-(14 + 6)) ≤ 255 ∧
    decode4 (store zeroBuf 0 0xED) 1 zeroBuf 1 = Run.abort :=
  ⟨by decide, by decide, by decide, by decide, rfl⟩

/-- C15 (amended): for every loop state (previous value `last`), sign nibble
`n0` in `{0xD, 0xE}` and second nibble `n1` inside the stream, one iteration of
`decode4` computes `delta = -(n1 + 6)` if `n0 = 0xD`, else `n1 + 6`, and for
`n1` in `0 .. 13` (so also for `n1 = 0`) stores `last - delta` and goes on
when that value is in `[0, 255]`; for `n1 = 14` or `15` it aborts. -/
theorem decBody_mid_magnitude (data : Buf) (bytes : Int) (i : Nat) (last : Int) (p : Nat) (o : Buf)
    (n0 n1 : Nat) (h0 : nibbleAt data p = n0) (hn0 : n0 = 0xD ∨ n0 = 0xE)
    (h1 : nibbleAt data (p + 1) = n1) (hb : ((p + 1 : Nat) : Int) < bytes * 2) :
    (n1 ≤ 13 →
      0 ≤ last - (if n0 = 0xD then -((n1 : Int) + 6) else (n1 : Int) + 6) →
      last - (if n0 = 0xD then -((n1 : Int) + 6) else (n1 : Int) + 6) ≤ 255 →
      decBody data bytes i last p o =
        Run.ret (i + 1, last - (if n0 = 0xD then -((n1 : Int) + 6) else (n1 : Int) + 6), p + 2,
          store o i (last - (if n0 = 0xD then -((n1 : Int) + 6) else (n1 : Int) + 6)).toNat)) ∧
    (14 ≤ n1 → decBody data bytes i last p o = Run.abort) := by
  rw [← hex_in_eq_nibbleAt] at h0 h1
  constructor
  · intro hn1 hv1 hv2
    unfold decBody
    rw [decDelta_mid data bytes p n0 n1 h0 (by omega) h1 hn1 hb]
    dsimp only
    rw [if_pos ⟨hv1, hv2⟩]
    generalize last - (if n0 = 13 then -((n1 : Int) + 6) else (n1 : Int) + 6) = v at hv1 hv2
    have e : (v % 256).toNat = v.toNat := by omega
    rw [e]
  · intro hn1
    have hd : decDelta data bytes p = Run.abort := by
      unfold decDelta
      dsimp only
      rw [h0, h1, if_neg (by omega), if_neg (by omega), if_pos hn0]
      rw [if_neg]
      intro hh
      split_ifs at hh <;> omega
    unfold decBody
    rw [hd]

theorem decBody_mid_magnitude_witness :
    nibbleAt (store zeroBuf 0 0x0E) 0 = 14 ∧ (14 = 0xD ∨ 14 = 0xE) ∧
    nibbleAt (store zeroBuf 0 0x0E) 1 = 0 ∧ (((0 + 1 : Nat) : Int) < 1 * 2) ∧
    ((0 ≤ 13 →
      0 ≤ (10 : Int) - (if 14 = 0xD then -(((0 : Nat) : Int) + 6) else ((0 : Nat) : Int) + 6) →
      (10 : Int) - (if 14 = 0xD then -(((0 : Nat) : Int) + 6) else ((0 : Nat) : Int) + 6) ≤ 255 →
      decBody (store zeroBuf 0 0x0E) 1 0 10 0 zeroBuf =
        Run.ret (0 + 1,
          (10 : Int) - (if 14 = 0xD then -(((0 : Nat) : Int) + 6) else ((0 : Nat) : Int) + 6),
          0 + 2,
          store zeroBuf 0
            ((10 : Int) - (if 14 = 0xD then -(((0 : Nat) : Int) + 6)
              else ((0 : Nat) : Int) + 6)).toNat)) ∧
    (14 ≤ 0 → decBody (store zeroBuf 0 0x0E) 1 0 10 0 zeroBuf = Run.abort)) :=
  ⟨by decide, by decide, by decide, by decide,
    decBody_mid_magnitude (store zeroBuf 0 0x0E) 1 0 10 0 zeroBuf 14 0 (by decide) (by decide)
      (by decide) (by decide)⟩

/-- C16: for every state of the encoder loop on byte input (`last` and the
sample `x` are bytes), a 1-nibble code word is a nibble in `0x0 .. 0xC`, and a
2-nibble code word is a sign nibble `0xD` or `0xE` followed by a magnitude
nibble in `1 .. 13`; the nibbles are the values `hex_out` masks out of `out`
and `out >> 4`. -/
theorem encWord_nibble_ranges (last : Int) (x : Nat) (hl1 : 0 ≤ last) (hl2 : last ≤ 255)
    (hx : x < 256) :
    ∃ out bits, encWord (last - (x : Int)) = Run.ret (out, bits) ∧
      (bits = 4 → out &&& 0xF ≤ 0xC) ∧
      (bits = 8 → ((out >>> 0) &&& 0xF = 0xD ∨ (out >>> 0) &&& 0xF = 0xE) ∧
        1 ≤ (out >>> 4) &&& 0xF ∧ (out >>> 4) &&& 0xF ≤ 13) := by
  have h1 : -255 ≤ last - (x : Int) := by omega
  have h2 : last - (x : Int) ≤ 255 := by omega
  generalize last - (x : Int) = d at h1 h2
  by_cases hs : -6 ≤ d ∧ d ≤ 6
  · refine ⟨_, _, encWord_small d hs.1 hs.2, ?_, ?_⟩
    · intro _; rw [and_fifteen]; omega
    · intro h; omega
  · by_cases hm : d.natAbs ≤ 19
    · refine ⟨_, _, encWord_mid d (by omega) hm, ?_, ?_⟩
      · intro h; omega
      · intro _
        rw [Nat.shiftRight_zero, shiftRight_four, and_fifteen, and_fifteen]
        by_cases hd : d < 0
        · simp only [hd, if_true]; omega
        · simp only [hd, if_false]; omega
    · refine ⟨_, _, encWord_escape d (by omega) (by omega), ?_, ?_⟩
      · intro h; omega
      · intro h; omega

theorem encWord_nibble_ranges_witness :
    (0 : Int) ≤ 20 ∧ (20 : Int) ≤ 255 ∧ 13 < 256 ∧
    ∃ out bits, encWord ((20 : Int) - ((13 : Nat) : Int)) = Run.ret (out, bits) ∧
      (bits = 4 → out &&& 0xF ≤ 0xC) ∧
      (bits = 8 → ((out >>> 0) &&& 0xF = 0xD ∨ (out >>> 0) &&& 0xF = 0xE) ∧
        1 ≤ (out >>> 4) &&& 0xF ∧ (out >>> 4) &&& 0xF ≤ 13) :=
  ⟨by decide, by decide, by decide,
    encWord_nibble_ranges 20 13 (by decide) (by decide) (by decide)⟩

/-- C17: on byte input `encode4` returns (no assertion fires), and in every
state of its loop (`last` and the sample `x` are bytes) the asserted conditions
hold: the delta is in `[-255, 255]` (line 75), the short-code value is in
`0 .. 0xC` (line 79), the mid-code magnitude is in `0 .. 0xD` (line 82), the
escape word fits in 16 bits, and `bits` is 4, 8 or 16 (line 101). -/
theorem encode4_asserts_hold (S : List Nat) (out : Buf) (C : Nat) (hS : IsBytes S) :
    (∃ k buf, encode4 S out C = Run.ret (k, buf)) ∧
    ∀ (last : Int) (x : Nat), 0 ≤ last → last ≤ 255 → x < 256 →
      (-255 ≤ last - (x : Int) ∧ last - (x : Int) ≤ 255) ∧
      (-6 ≤ last - (x : Int) ∧ last - (x : Int) ≤ 6 →
        ((last - (x : Int) + 6) % 65536).toNat ≤ 0xC) ∧
      (¬ (-6 ≤ last - (x : Int) ∧ last - (x : Int) ≤ 6) →
        -19 ≤ last - (x : Int) ∧ last - (x : Int) ≤ 19 →
        (((((last - (x : Int)).natAbs : Nat) : Int) - 6) % 256).toNat ≤ 0xD) ∧
      (0xF ||| ((if last - (x : Int) < 0 then 0xD else 0xE) <<< 4)
        ||| ((last - (x : Int)).natAbs <<< 8)) < 65536 ∧
      ∃ w bits, encWord (last - (x : Int)) = Run.ret (w, bits) ∧
        (bits = 4 ∨ bits = 8 ∨ bits = 16) := by
  refine ⟨?_, ?_⟩
  · obtain ⟨k, buf, h, _⟩ := encLoop_frame C S 0 0 out hS (by omega)
    exact ⟨k, buf, h⟩
  · intro last x hl1 hl2 hx
    have h1 : -255 ≤ last - (x : Int) := by omega
    have h2 : last - (x : Int) ≤ 255 := by omega
    generalize last - (x : Int) = d at h1 h2
    refine ⟨⟨h1, h2⟩, by omega, by omega, ?_, ?_⟩
    · have hf := escape_word_fits_fin d.natAbs (by omega)
      split_ifs
      · exact hf.1
      · exact hf.2
    · by_cases hs : -6 ≤ d ∧ d ≤ 6
      · exact ⟨_, _, encWord_small d hs.1 hs.2, Or.inl rfl⟩
      · by_cases hm : d.natAbs ≤ 19
        · exact ⟨_, _, encWord_mid d (by omega) hm, Or.inr (Or.inl rfl)⟩
        · exact ⟨_, _, encWord_escape d (by omega) (by omega), Or.inr (Or.inr rfl)⟩


theorem encode4_asserts_hold_witness :
    IsBytes [5, 200, 190] ∧
    ((∃ k buf, encode4 [5, 200, 190] zeroBuf 4 = Run.ret (k, buf)) ∧
    ∀ (last : Int) (x : Nat), 0 ≤ last → last ≤ 255 → x < 256 →
      (-255 ≤ last - (x : Int) ∧ last - (x : Int) ≤ 255) ∧
      (-6 ≤ last - (x : Int) ∧ last - (x : Int) ≤ 6 →
        ((last - (x : Int) + 6) % 65536).toNat ≤ 0xC) ∧
      (¬ (-6 ≤ last - (x : Int) ∧ last - (x : Int) ≤ 6) →
        -19 ≤ last - (x : Int) ∧ last - (x : Int) ≤ 19 →
        (((((last - (x : Int)).natAbs : Nat) : Int) - 6) % 256).toNat ≤ 0xD) ∧
      (0xF ||| ((if last - (x : Int) < 0 then 0xD else 0xE) <<< 4)
        ||| ((last - (x : Int)).natAbs <<< 8)) < 65536 ∧
      ∃ w bits, encWord (last - (x : Int)) = Run.ret (w, bits) ∧
        (bits = 4 ∨ bits = 8 ∨ bits = 16)) :=
  ⟨by decide, encode4_asserts_hold [5, 200, 190] zeroBuf 4 (by decide)⟩

/-- C18 (counterexample to the claim as stated): `encode4` succeeds on
`{7, 7, 30, 29}` with capacity 5 and returns 4, but with the larger capacity
`2^30` the product `count * 2` of line 89 is `-2^31` in `int`, the test
`0 + 2 >= count * 2` holds for the first sample, and `encode4` returns `-1`. -/
theorem encode4I32_capacity_two_pow_30 :
    (∃ b, encode4I32 [7, 7, 30, 29] zeroBuf 5 = Run.ret (4, b)) ∧ 5 ≤ 1073741824 ∧
    toInt32 (((1073741824 : Nat) : Int) * 2) = -2147483648 ∧
    encode4I32 [7, 7, 30, 29] zeroBuf 1073741824 = Run.ret (-1, zeroBuf) :=
  ⟨⟨_, rfl⟩, by decide, by decide, rfl⟩

/-- C18 (amended): if `encode4` succeeds on `S` with capacity `C` and returns
`k`, then with every capacity `C2 ≥ C` for which `C2 * 2` is an `int`
(`C2 < 2^30`) it succeeds, returns the same `k` and leaves the same buffer;
started on any other output buffer it still returns `k`, and the first `k`
bytes are the same. -/
theorem encode4I32_capacity_independent (S : List Nat) (out : Buf) (C : Nat) (k : Int)
    (packed : Buf) (hS : IsBytes S) (henc : encode4I32 S out C = Run.ret (k, packed))
    (hk : 0 ≤ k) (C2 : Nat) (hC : C ≤ C2) (hC2 : C2 * 2 ≤ 2147483647) (out2 : Buf) :
    encode4I32 S out C2 = Run.ret (k, packed) ∧
    ∃ packed2, encode4I32 S out2 C2 = Run.ret (k, packed2) ∧
      ∀ idx : Nat, (idx : Int) < k → packed2 idx = packed idx := by
  obtain ⟨hkk, hp⟩ := encLoopI32_shape C S 0 0 out k packed hS (by omega) henc hk
  rw [Nat.zero_add] at hkk
  have hind : ∀ idx : Nat, (idx : Int) < k →
      writeNibbles out2 0 (refStream 0 S) idx = packed idx := by
    intro idx hidx
    rw [hp]
    apply writeNibbles_indep
    right
    rw [refStream_length]
    omega
  by_cases hCC : C = C2
  · subst hCC
    refine ⟨henc, ?_⟩
    obtain ⟨b2, hb2⟩ := encLoopI32_code C S 0 0 out out2 k packed hS (by omega) henc
    obtain ⟨_, hp2⟩ := encLoopI32_shape C S 0 0 out2 k b2 hS (by omega) hb2 hk
    refine ⟨b2, hb2, ?_⟩
    intro idx hidx
    rw [hp2]
    exact hind idx hidx
  · have heq := encLoopI32_eq_encLoop C S 0 0 out hS (by omega) (by omega) (Or.inl rfl)
    have henc2 : encode4 S out C = Run.ret (k, packed) := by
      unfold encode4; rw [← heq]; exact henc
    obtain ⟨hfit, _, _⟩ := encode4_success S out C k packed hS henc2 hk
    have hfit2 : S = [] ∨ 0 + totalNibbles 0 S < C2 * 2 := by
      rcases hfit with h | h
      · exact Or.inl h
      · exact Or.inr (by omega)
    have h1 := encLoopI32_ok C2 S 0 0 out hS (by omega) hC2 hfit2
    have h2 := encLoopI32_ok C2 S 0 0 out2 hS (by omega) hC2 hfit2
    rw [Nat.zero_add] at h1 h2
    unfold encode4I32
    rw [h1, h2, ← hkk, ← hp]
    exact ⟨rfl, _, rfl, hind⟩

theorem encode4I32_capacity_independent_witness :
    IsBytes [7, 7, 30, 29] ∧
    encode4I32 [7, 7, 30, 29] zeroBuf 5 =
      Run.ret (4, writeNibbles zeroBuf 0 [13, 1, 6, 15, 13, 7, 1, 7]) ∧
    (0 : Int) ≤ 4 ∧ 5 ≤ 1073741823 ∧ 1073741823 * 2 ≤ 2147483647 ∧
    (encode4I32 [7, 7, 30, 29] zeroBuf 1073741823 =
      Run.ret (4, writeNibbles zeroBuf 0 [13, 1, 6, 15, 13, 7, 1, 7]) ∧
    ∃ packed2, encode4I32 [7, 7, 30, 29] (fun _ => 0xFF) 1073741823 = Run.ret (4, packed2) ∧
      ∀ idx : Nat, (idx : Int) < 4 →
        packed2 idx = writeNibbles zeroBuf 0 [13, 1, 6, 15, 13, 7, 1, 7] idx) :=
  ⟨by decide, rfl, by decide, by decide, by decide,
    encode4I32_capacity_independent [7, 7, 30, 29] zeroBuf 5 4
      (writeNibbles zeroBuf 0 [13, 1, 6, 15, 13, 7, 1, 7]) (by decide) rfl (by decide)
      1073741823 (by decide) (by decide) (fun _ => 0xFF)⟩

/-- C19: `decode4` never runs out of the iteration budget; when it returns,
the returned count is at most `count` and every output cell at index `count`
or beyond is unchanged; and its outcome is the same on every buffer that
agrees with `data` on the byte indices below `bytes`, that is, it depends on
no nibble at index `2 * bytes` or beyond. -/
theorem decode4_in_bounds (data : Buf) (bytes : Int) (out : Buf) (count : Nat) :
    decode4 data bytes out count ≠ Run.stuck ∧
    (∀ n dec, decode4 data bytes out count = Run.ret (n, dec) →
      0 ≤ n ∧ n ≤ count ∧ ∀ idx, count ≤ idx → dec idx = out idx) ∧
    (∀ data2 : Buf, (∀ idx : Nat, (idx : Int) < bytes → data2 idx = data idx) →
      decode4 data2 bytes out count = decode4 data bytes out count) := by
  refine ⟨decode4_ne_stuck data bytes out count, ?_, ?_⟩
  · intro n dec h
    unfold decode4 at h
    split at h
    · rename_i i q o hl
      simp only [Run.ret.injEq, Prod.mk.injEq] at h
      obtain ⟨h1, h2⟩ := h
      subst h1 h2
      obtain ⟨_, hb, hf⟩ := decLoop_bounds data bytes count count 0 0 0 out i q o
        (Nat.zero_le _) hl
      exact ⟨Nat.zero_le _, hb, hf⟩
    · cases h
    · cases h
  · intro data2 hd
    unfold decode4
    rw [decLoop_congr data2 data bytes count count 0 0 0 out
      (hex_in_of_bytes_eq data2 data bytes hd)]

/-- C20: for a successfully encoded sequence `pre ++ [s]` (length `N ≥ 1`)
with an odd nibble count, `decode4` with the packed length and the expected
count `N + 1` reads the zero padding nibble as delta `-6`: it returns `N + 1`
with the extra sample `s + 6` when `s ≤ 249`, and aborts on the range
assertion when `s ≥ 250`. -/
theorem decode4_over_request (pre : List Nat) (s : Nat) (out : Buf) (C : Nat) (k : Int)
    (packed : Buf) (hS : IsBytes (pre ++ [s]))
    (henc : encode4 (pre ++ [s]) out C = Run.ret (k, packed)) (hk : 0 ≤ k)
    (hodd : totalNibbles 0 (pre ++ [s]) % 2 = 1) (dec0 : Buf) :
    (s ≤ 249 → decode4 packed k dec0 ((pre ++ [s]).length + 1) =
      Run.ret ((pre ++ [s]).length + 1, writeBytes dec0 0 ((pre ++ [s]) ++ [s + 6]))) ∧
    (250 ≤ s → decode4 packed k dec0 ((pre ++ [s]).length + 1) = Run.abort) := by
  obtain ⟨_, hkk, hp⟩ := encode4_success (pre ++ [s]) out C k packed hS henc hk
  have hn := NibblesAt_encode4 (pre ++ [s]) out C k packed hS henc hk
  have hs : s < 256 := hS s (by simp)
  have hpad : hex_in packed (totalNibbles 0 (pre ++ [s])) = 0 := by
    have ht := writeNibbles_trailing out 0 (refStream 0 (pre ++ [s])) (by omega)
      (by rw [refStream_length, Nat.zero_add]; exact hodd)
    rw [refStream_length, Nat.zero_add, ← hp] at ht
    rw [hex_in_eq_nibbleAt]
    unfold nibbleAt
    rw [if_neg (by omega)]
    omega
  have hsteps := decLoop_steps packed k ((pre ++ [s]).length + 1) (pre ++ [s]) 0 0 0 dec0 1 hS
    (by omega) hn (by rw [hkk]; push_cast; omega) (by omega)
  have e : 1 + (pre ++ [s]).length = (pre ++ [s]).length + 1 := by omega
  rw [e, lastAfter_append_singleton, Nat.zero_add, Nat.zero_add] at hsteps
  have hcond : ((totalNibbles 0 (pre ++ [s]) : Nat) : Int) < k * 2 ∧
      (pre ++ [s]).length < (pre ++ [s]).length + 1 := ⟨by rw [hkk]; omega, by omega⟩
  have hdelta := decDelta_short packed k (totalNibbles 0 (pre ++ [s])) 0 hpad (by omega)
  constructor
  · intro h249
    have hbody : decBody packed k (pre ++ [s]).length (s : Int) (totalNibbles 0 (pre ++ [s]))
        (writeBytes dec0 0 (pre ++ [s])) =
        Run.ret ((pre ++ [s]).length + 1, (s : Int) + 6, totalNibbles 0 (pre ++ [s]) + 1,
          store (writeBytes dec0 0 (pre ++ [s])) (pre ++ [s]).length (s + 6)) := by
      unfold decBody
      rw [hdelta]
      dsimp only
      have e1 : (s : Int) - (((0 : Nat) : Int) - 6) = (s : Int) + 6 := by omega
      rw [e1, if_pos (by omega)]
      have e2 : (((s : Int) + 6) % 256).toNat = s + 6 := by omega
      rw [e2]
    unfold decode4
    rw [hsteps, decLoop, if_pos hcond, hbody]
    dsimp only
    rw [decLoop, if_neg (by omega)]
    dsimp only
    rw [writeBytes_append dec0 0 (pre ++ [s]) [s + 6]]
    simp only [writeBytes, Nat.zero_add]
  · intro h250
    have hbody : decBody packed k (pre ++ [s]).length (s : Int) (totalNibbles 0 (pre ++ [s]))
        (writeBytes dec0 0 (pre ++ [s])) = Run.abort := by
      unfold decBody
      rw [hdelta]
      dsimp only
      rw [if_neg (by omega)]
    unfold decode4
    rw [hsteps, decLoop, if_pos hcond, hbody]

theorem decode4_over_request_witness :
    IsBytes ([0, 1, 2, 4] ++ [8]) ∧
    encode4 ([0, 1, 2, 4] ++ [8]) zeroBuf 3 =
      Run.ret (3, writeNibbles zeroBuf 0 [6, 5, 5, 4, 2]) ∧
    (0 : Int) ≤ 3 ∧ totalNibbles 0 ([0, 1, 2, 4] ++ [8]) % 2 = 1 ∧
    ((8 ≤ 249 → decode4 (writeNibbles zeroBuf 0 [6, 5, 5, 4, 2]) 3 zeroBuf
        (([0, 1, 2, 4] ++ [8]).length + 1) =
      Run.ret (([0, 1, 2, 4] ++ [8]).length + 1,
        writeBytes zeroBuf 0 (([0, 1, 2, 4] ++ [8]) ++ [8 + 6]))) ∧
    (250 ≤ 8 → decode4 (writeNibbles zeroBuf 0 [6, 5, 5, 4, 2]) 3 zeroBuf
        (([0, 1, 2, 4] ++ [8]).length + 1) = Run.abort)) :=
  ⟨by decide, rfl, by decide, by decide,
    decode4_over_request [0, 1, 2, 4] 8 zeroBuf 3 3 (writeNibbles zeroBuf 0 [6, 5, 5, 4, 2])
      (by decide) rfl (by decide) (by decide) zeroBuf⟩

end DCode4
